import Mathlib

/-!
Verification of the `severed` build-time CSS-in-source extractor.

This file gives a shallow embedding of the repository's core code:

* `src/packages/severed/transform-file.ts` — the classifier/rewriter
  (`modifyCodeForEvaluation`) over an ESTree-style AST, the `magic-string`
  text-edit structure it mutates, and the per-file `transform` driver;
* `src/packages/severed/index.ts` — the plugin layer: the `emitCSS`
  class-name generator (SHA-512 based), the process-wide CSS buffer
  mutation in `transform`, and the pull-mode `load` hook;
* `src/unnamed/part_001` — the push-mode output file name
  (`distFileName`) flattening.

Source text is modelled as `List Char`; byte/UTF-16 offsets from the
parser are `Nat` indices into that list (all inputs of interest are
ASCII, where the two coincide).  External collaborators (the `meriyah`
parser, `rollup`, `requireFromString`, `stylis`) are modelled at their
interfaces: the parser's output is an explicit AST argument, the
bundler+evaluator pair is an oracle argument producing the harvested
exports, and the CSS post-processor is an opaque function argument.
-/

set_option maxRecDepth 100000

namespace Severed

/-! ## Small string/list utilities -/

/-- Association-list lookup, mirroring JS `Map.get` (first match). -/
def alGet (m : List (List Char × List Char)) (k : List Char) : Option (List Char) :=
  match m with
  | [] => none
  | (k', v) :: rest => if k' = k then some v else alGet rest k

/-- Remove the entry for a key, mirroring JS `Map.delete`. -/
def alDelete (m : List (List Char × List Char)) (k : List Char) :
    List (List Char × List Char) :=
  match m with
  | [] => []
  | (k', v) :: rest => if k' = k then alDelete rest k else (k', v) :: alDelete rest k

/-- Insert/overwrite the entry for a key, mirroring JS `Map.set`
(delete-then-append gives the same lookup behaviour). -/
def alSet (m : List (List Char × List Char)) (k v : List Char) :
    List (List Char × List Char) :=
  alDelete m k ++ [(k, v)]

/-- `sub` occurs somewhere in `l` (JS `String.prototype.includes`). -/
def hasSub (l sub : List Char) : Bool :=
  l.tails.any (fun t => sub.isPrefixOf t)

/-- Slice `l` between indices `a` (inclusive) and `b` (exclusive). -/
def sliceList (l : List Char) (a b : Nat) : List Char :=
  (l.drop a).take (b - a)

/-- Concatenation of a list of character lists. -/
def catLists : List (List Char) → List Char
  | [] => []
  | l :: ls => l ++ catLists ls

/-- Decimal digits of a natural number, as characters. -/
def natToChars (n : Nat) : List Char :=
  (Nat.toDigits 10 n)

/-! ## SHA-512 (FIPS 180-4), on lists of bytes

`index.ts` computes class names with node's `crypto` SHA-512 hex digest
(an external primitive, specified at its interface); we implement the
function itself so that every statement about class names is grounded. -/

/-- Truncate to a 64-bit word. -/
def w64 (n : Nat) : Nat := n % 18446744073709551616

/-- 64-bit right rotation (input assumed < 2^64). -/
def rotr64 (x n : Nat) : Nat := w64 ((x >>> n) ||| (x <<< (64 - n)))

/- The 80 round constants of FIPS 180-4 sec. 4.2.3, stored as
(high, low) 32-bit halves. -/
def sha512KHalves : List (Nat × Nat) := [
  (0x428a2f98, 0xd728ae22), (0x71374491, 0x23ef65cd), (0xb5c0fbcf, 0xec4d3b2f),
  (0xe9b5dba5, 0x8189dbbc), (0x3956c25b, 0xf348b538), (0x59f111f1, 0xb605d019),
  (0x923f82a4, 0xaf194f9b), (0xab1c5ed5, 0xda6d8118), (0xd807aa98, 0xa3030242),
  (0x12835b01, 0x45706fbe), (0x243185be, 0x4ee4b28c), (0x550c7dc3, 0xd5ffb4e2),
  (0x72be5d74, 0xf27b896f), (0x80deb1fe, 0x3b1696b1), (0x9bdc06a7, 0x25c71235),
  (0xc19bf174, 0xcf692694), (0xe49b69c1, 0x9ef14ad2), (0xefbe4786, 0x384f25e3),
  (0x0fc19dc6, 0x8b8cd5b5), (0x240ca1cc, 0x77ac9c65), (0x2de92c6f, 0x592b0275),
  (0x4a7484aa, 0x6ea6e483), (0x5cb0a9dc, 0xbd41fbd4), (0x76f988da, 0x831153b5),
  (0x983e5152, 0xee66dfab), (0xa831c66d, 0x2db43210), (0xb00327c8, 0x98fb213f),
  (0xbf597fc7, 0xbeef0ee4), (0xc6e00bf3, 0x3da88fc2), (0xd5a79147, 0x930aa725),
  (0x06ca6351, 0xe003826f), (0x14292967, 0x0a0e6e70), (0x27b70a85, 0x46d22ffc),
  (0x2e1b2138, 0x5c26c926), (0x4d2c6dfc, 0x5ac42aed), (0x53380d13, 0x9d95b3df),
  (0x650a7354, 0x8baf63de), (0x766a0abb, 0x3c77b2a8), (0x81c2c92e, 0x47edaee6),
  (0x92722c85, 0x1482353b), (0xa2bfe8a1, 0x4cf10364), (0xa81a664b, 0xbc423001),
  (0xc24b8b70, 0xd0f89791), (0xc76c51a3, 0x0654be30), (0xd192e819, 0xd6ef5218),
  (0xd6990624, 0x5565a910), (0xf40e3585, 0x5771202a), (0x106aa070, 0x32bbd1b8),
  (0x19a4c116, 0xb8d2d0c8), (0x1e376c08, 0x5141ab53), (0x2748774c, 0xdf8eeb99),
  (0x34b0bcb5, 0xe19b48a8), (0x391c0cb3, 0xc5c95a63), (0x4ed8aa4a, 0xe3418acb),
  (0x5b9cca4f, 0x7763e373), (0x682e6ff3, 0xd6b2b8a3), (0x748f82ee, 0x5defb2fc),
  (0x78a5636f, 0x43172f60), (0x84c87814, 0xa1f0ab72), (0x8cc70208, 0x1a6439ec),
  (0x90befffa, 0x23631e28), (0xa4506ceb, 0xde82bde9), (0xbef9a3f7, 0xb2c67915),
  (0xc67178f2, 0xe372532b), (0xca273ece, 0xea26619c), (0xd186b8c7, 0x21c0c207),
  (0xeada7dd6, 0xcde0eb1e), (0xf57d4f7f, 0xee6ed178), (0x06f067aa, 0x72176fba),
  (0x0a637dc5, 0xa2c898a6), (0x113f9804, 0xbef90dae), (0x1b710b35, 0x131c471b),
  (0x28db77f5, 0x23047d84), (0x32caab7b, 0x40c72493), (0x3c9ebe0a, 0x15c9bebc),
  (0x431d67c4, 0x9c100d4c), (0x4cc5d4be, 0xcb3e42b6), (0x597f299c, 0xfc657e2a),
  (0x5fcb6fab, 0x3ad6faec), (0x6c44198c, 0x4a475817)]

def sha512K : List Nat :=
  sha512KHalves.map (fun p => p.1 * 0x100000000 + p.2)

def sha512H0Halves : List (Nat × Nat) := [
  (0x6a09e667, 0xf3bcc908), (0xbb67ae85, 0x84caa73b), (0x3c6ef372, 0xfe94f82b),
  (0xa54ff53a, 0x5f1d36f1), (0x510e527f, 0xade682d1), (0x9b05688c, 0x2b3e6c1f),
  (0x1f83d9ab, 0xfb41bd6b), (0x5be0cd19, 0x137e2179)]

def sha512H0 : List Nat :=
  sha512H0Halves.map (fun p => p.1 * 0x100000000 + p.2)

/-- Big-endian bytes of `n`, `k` bytes wide. -/
def natToBytesBE (n k : Nat) : List Nat :=
  (List.range k).map (fun i => (n >>> (8 * (k - 1 - i))) % 256)

/-- Combine 8 bytes (big-endian) into a 64-bit word. -/
def bytesToWord (bs : List Nat) : Nat :=
  bs.foldl (fun acc b => acc * 256 + b) 0

/-- Split a list into chunks of 128 elements (fuel-driven structural
recursion so that the kernel can evaluate it; the fuel is always
sufficient). -/
def chunks128Go : Nat → List Nat → List (List Nat)
  | 0, _ => []
  | _, [] => []
  | fuel + 1, x :: xs => (x :: xs).take 128 :: chunks128Go fuel ((x :: xs).drop 128)

/-- Split a list into chunks of 128 elements. -/
def chunks128 (l : List Nat) : List (List Nat) := chunks128Go (l.length + 1) l

/-- Split a 128-byte block into sixteen 64-bit words. -/
def blockWords : List Nat → List Nat
  | b1 :: b2 :: b3 :: b4 :: b5 :: b6 :: b7 :: b8 :: rest =>
      bytesToWord [b1, b2, b3, b4, b5, b6, b7, b8] :: blockWords rest
  | _ => []

/-- Message-schedule extension: grow the 16 block words to 80. -/
def sha512Schedule (ws : List Nat) : List Nat :=
  (List.range 64).foldl
    (fun w _ =>
      let n := w.length
      let s0x := w.getD (n - 15) 0
      let s1x := w.getD (n - 2) 0
      let s0 := (rotr64 s0x 1) ^^^ (rotr64 s0x 8) ^^^ (s0x >>> 7)
      let s1 := (rotr64 s1x 19) ^^^ (rotr64 s1x 61) ^^^ (s1x >>> 6)
      w ++ [w64 (w.getD (n - 16) 0 + s0 + w.getD (n - 7) 0 + s1)])
    ws

/-- One compression round. -/
def sha512Round (st : List Nat) (kw : Nat × Nat) : List Nat :=
  match st with
  | [a, b, c, d, e, f, g, h] =>
    let S1 := (rotr64 e 14) ^^^ (rotr64 e 18) ^^^ (rotr64 e 41)
    let ch := (e &&& f) ^^^ ((18446744073709551615 - e) &&& g)
    let t1 := w64 (h + S1 + ch + kw.1 + kw.2)
    let S0 := (rotr64 a 28) ^^^ (rotr64 a 34) ^^^ (rotr64 a 39)
    let maj := (a &&& b) ^^^ (a &&& c) ^^^ (b &&& c)
    let t2 := w64 (S0 + maj)
    [w64 (t1 + t2), a, b, c, w64 (d + t1), e, f, g]
  | other => other

/-- Process one 128-byte block. -/
def sha512Block (h : List Nat) (block : List Nat) : List Nat :=
  let w := sha512Schedule (blockWords block)
  let st := (sha512K.zip w).foldl sha512Round h
  (h.zip st).map (fun p => w64 (p.1 + p.2))

/-- SHA-512 padding of a byte string. -/
def sha512Pad (msg : List Nat) : List Nat :=
  let L := msg.length
  let k := (128 + 112 - ((L + 1) % 128)) % 128
  msg ++ [128] ++ List.replicate k 0 ++ natToBytesBE (8 * L) 16

/-- SHA-512 digest (as eight 64-bit words) of a byte string. -/
def sha512Words (msg : List Nat) : List Nat :=
  (chunks128 (sha512Pad msg)).foldl sha512Block sha512H0

/-- One hex digit. -/
def hexChar (n : Nat) : Char :=
  if n < 10 then Char.ofNat (48 + n) else Char.ofNat (87 + n)

/-- 16 hex characters of one 64-bit word (big-endian nibbles). -/
def wordHex (w : Nat) : List Char :=
  (List.range 16).map (fun i => hexChar ((w >>> (4 * (15 - i))) % 16))

/-- Lower-case hex digest of SHA-512 over a byte string — the model of
node `crypto`'s `createHash('sha512') … digest('hex')`. -/
def sha512hex (msg : List Nat) : List Char :=
  (sha512Words msg).flatMap wordHex

/-- UTF-8 encoding of one character (`hash.update(string)` encodes UTF-8). -/
def utf8EncodeChar (c : Char) : List Nat :=
  let n := c.toNat
  if n < 128 then [n]
  else if n < 2048 then [192 + (n >>> 6), 128 + (n % 64)]
  else if n < 65536 then
    [224 + (n >>> 12), 128 + ((n >>> 6) % 64), 128 + (n % 64)]
  else
    [240 + (n >>> 18), 128 + ((n >>> 12) % 64), 128 + ((n >>> 6) % 64), 128 + (n % 64)]

/-- UTF-8 encoding of a character list. -/
def utf8Encode (s : List Char) : List Nat :=
  s.flatMap utf8EncodeChar

/-- The `hash` helper of `index.ts` applied to a single string:
`crypto.createHash('sha512'); h.update(input); h.digest('hex')`. -/
def hashOne (s : List Char) : List Char :=
  sha512hex (utf8Encode s)

/-! ## `index.ts`: the `emitCSS` closure -/

/-- The class name computed by `emitCSS` in `index.ts`:
`` `severed-${hash([inputCSS]).slice(0, 7)}` ``. -/
def emitClassName (inputCSS : List Char) : List Char :=
  "severed-".toList ++ (hashOne inputCSS).take 7

/-- One `emitCSS` call: returns the class name and the new value of the
`cssForThisFile` accumulator
(`` cssForThisFile += `\n\n${outputCSS}` ``), where `stylize` stands for
the external `stylis` pipeline producing `outputCSS` from the raw CSS. -/
def emitCSSStep (stylize : List Char → List Char) (acc inputCSS : List Char) :
    List Char × List Char :=
  (emitClassName inputCSS, acc ++ ("\n\n".toList ++ stylize inputCSS))

/-- The `cssForThisFile` accumulator after a sequence of `emitCSS` calls. -/
def accCss (stylize : List Char → List Char) (emits : List (List Char)) : List Char :=
  (emits.map (fun c => "\n\n".toList ++ stylize c)).foldl (· ++ ·) []

/-! ## `index.ts`: the plugin `transform` hook's buffer mutation (C8)

The hook body is:
```
if (!id.endsWith('.js') && !id.endsWith('.ts') && !id.endsWith('.tsx')) return;
cssByFile.delete(id);
let cssForThisFile = '';
... const transformResult = await transform(...);
if (!transformResult) return null;
cssByFile.set(id, cssForThisFile);
...
return transformResult;
```
The inner `transform` outcome is abstracted as an argument: an error
(thrown), or `(none, emits)` (returned null), or `(some out, emits)`
(success, where `emits` lists the raw CSS of every `emitCSS` call made,
so `cssForThisFile` ends as `accCss stylize emits`). -/

/-- Extension whitelist test of the `transform` hook. -/
def extOk (id : List Char) : Bool :=
  ".js".toList.isSuffixOf id || ".ts".toList.isSuffixOf id ||
    ".tsx".toList.isSuffixOf id

/-- State transition of the plugin `transform` hook on the process-wide
`cssByFile` buffer.  Returns the new buffer and the hook's outcome. -/
def pluginTransform (stylize : List Char → List Char)
    (m : List (List Char × List Char)) (id : List Char)
    (inner : Except (List Char) (Option (List Char) × List (List Char))) :
    List (List Char × List Char) × Except (List Char) (Option (List Char)) :=
  if extOk id then
    let m1 := alDelete m id
    match inner with
    | .error e => (m1, .error e)
    | .ok (none, _) => (m1, .ok none)
    | .ok (some out, emits) => (alSet m1 id (accCss stylize emits), .ok (some out))
  else (m, .ok none)

/-! ## `src/unnamed/part_001`: push-mode output file name (C9) -/

def isAsciiLetter (c : Char) : Bool :=
  (65 ≤ c.toNat && c.toNat ≤ 90) || (97 ≤ c.toNat && c.toNat ≤ 122)

def isAsciiAlphanum (c : Char) : Bool :=
  isAsciiLetter c || (48 ≤ c.toNat && c.toNat ≤ 57)

/-- Global regex replacement of every maximal run of characters matching
`p` by a single `'-'`, modelled as the regex engine's left-to-right scan
(used for `replace(/[^a-zA-Z]+/g, '-')`). -/
def replaceRunsScan (p : Char → Bool) (l : List Char) : List Char :=
  (l.foldl
    (fun st c =>
      if p c then (if st.2 then st.1 else st.1 ++ ['-'], true)
      else (st.1 ++ [c], false))
    (([] : List Char), false)).1

/-- `distFileName` from `src/unnamed/part_001`:
`path.relative(process.cwd(), id).replace(/[^a-zA-Z]+/g, '-') + suffix`,
as a function of the already-computed cwd-relative path. -/
def distFileName (rel : List Char) : List Char :=
  replaceRunsScan (fun c => !(isAsciiLetter c)) rel ++ ".severed.css".toList

/-- In push mode the rewritten file imports `` `./${distFileName}` ``. -/
def pushImportSpecifier (rel : List Char) : List Char :=
  "./".toList ++ distFileName rel

/-- Modelled from the claim's words (C9): flattening that replaces each
run of non-ALPHANUMERIC characters by `'-'` (so digits would be
preserved), then appends the suffix.  For comparison with the code's
`distFileName`. -/
def distFileNameClaim (rel : List Char) : List Char :=
  replaceRunsScan (fun c => !(isAsciiAlphanum c)) rel ++ ".severed.css".toList

/-- Independent maximal-run formulation of the flattening (fuel-driven;
the fuel `l.length` is always sufficient): each maximal run of
characters matching `p` becomes one `'-'`, all other characters are
kept. -/
def flattenRunsGo (p : Char → Bool) : Nat → List Char → List Char
  | 0, _ => []
  | _, [] => []
  | fuel + 1, c :: rest =>
      if p c then '-' :: flattenRunsGo p fuel (rest.dropWhile p)
      else c :: flattenRunsGo p fuel rest

/-- Replace each maximal run of non-letter characters by `'-'`. -/
def flattenNonLetterRuns (l : List Char) : List Char :=
  flattenRunsGo (fun c => !(isAsciiLetter c)) l.length l

/-- Recursive form of the regex scan (`inRun` = the previous character
was part of a replaced run), used to relate `replaceRunsScan` to
`flattenRunsGo`. -/
def scanGo (p : Char → Bool) : Bool → List Char → List Char
  | _, [] => []
  | inRun, c :: rest =>
      if p c then
        (if inRun then scanGo p true rest else '-' :: scanGo p true rest)
      else c :: scanGo p false rest

/-! ## `index.ts`: the pull-mode `load` hook (C10)

```
async load(id) {
  if (opts.writeCSSFiles) return;
  const params = new URLSearchParams(id.slice(id.indexOf('?')));
  const severedParam = params.get('severed');
  const idWithoutParam = id.slice(0, id.indexOf('?'));
  if (!severedParam) return;
  const fallback = path.join(process.cwd(), idWithoutParam);
  return cssByFile.get(idWithoutParam) || cssByFile.get(fallback);
}
```
`path.join(process.cwd(), ·)` is modelled by an opaque argument
`joinCwd`.  `URLSearchParams` is modelled without percent/plus decoding
(no claim depends on it). -/

/-- Index of the first occurrence of a character, or `none`
(JS `indexOf` returning `-1`). -/
def firstIdx (l : List Char) (c : Char) : Option Nat :=
  match l with
  | [] => none
  | x :: xs => if x = c then some 0 else (firstIdx xs c).map (· + 1)

/-- `id.slice(id.indexOf('?'))` — note JS `slice(-1)` (no `'?'` found)
yields the LAST character of the string. -/
def queryPart (id : List Char) : List Char :=
  match firstIdx id '?' with
  | some i => id.drop i
  | none => id.drop (id.length - 1)

/-- `id.slice(0, id.indexOf('?'))` — with no `'?'`, JS `slice(0, -1)`
drops the last character. -/
def idWithoutParam (id : List Char) : List Char :=
  match firstIdx id '?' with
  | some i => id.take i
  | none => id.take (id.length - 1)

/-- Split a character list on `'&'` (always returns at least one piece). -/
def splitAmp : List Char → List (List Char)
  | [] => [[]]
  | c :: rest =>
      if c = '&' then [] :: splitAmp rest
      else
        match splitAmp rest with
        | [] => [[c]]
        | piece :: more => (c :: piece) :: more

/-- `URLSearchParams` parse: strip one leading `'?'`, split on `'&'`,
split each nonempty piece at its first `'='`. -/
def parseQuery (s : List Char) : List (List Char × List Char) :=
  let s1 := if s.head? = some '?' then s.drop 1 else s
  (splitAmp s1).filterMap (fun piece =>
    if piece = [] then none
    else match firstIdx piece '=' with
      | some i => some (piece.take i, piece.drop (i + 1))
      | none => some (piece, []))

/-- `params.get(name)`: value of the first matching parameter. -/
def getParam (q : List (List Char × List Char)) (name : List Char) :
    Option (List Char) :=
  (q.find? (fun p => p.1 = name)).map (fun p => p.2)

/-- The pull-mode `load` hook.  `none` models the hook yielding
(returning `undefined`). -/
def loadHook (cssByFile : List (List Char × List Char))
    (joinCwd : List Char → List Char) (writeCSSFiles : Bool)
    (id : List Char) : Option (List Char) :=
  if writeCSSFiles then none
  else
    match getParam (parseQuery (queryPart id)) "severed".toList with
    | none => none
    | some [] => none
    | some _ =>
      match alGet cssByFile (idWithoutParam id) with
      | some v =>
          if v = [] then alGet cssByFile (joinCwd (idWithoutParam id)) else some v
      | none => alGet cssByFile (joinCwd (idWithoutParam id))

/-! ## ESTree-style AST (`meriyah` output, as walked by `astray`)

Only the node kinds that `modifyCodeForEvaluation` distinguishes get
their own constructor; every other node kind is `plain` (the walker
has no visitor for it and just descends into its children, in source
order).  Each node carries its absolute `start`/`end` offsets. -/

inductive Node where
  | ident (s e : Nat) (name : List Char)
  | taggedTemplate (s e : Nat) (tag : Node) (quasisRaw : List (List Char))
      (exprs : List Node)
  | call (s e : Nat) (callee : Node) (args : List Node)
  | exportNamedDecl (s e : Nat) (decl : Node)
  | exportNamedSpecs (s e : Nat)
  | exportAll (s e : Nat)
  | exportDefaultDecl (s e : Nat) (decl : Node)
  | plain (s e : Nat) (children : List Node)

def Node.start : Node → Nat
  | .ident s _ _ => s
  | .taggedTemplate s _ _ _ _ => s
  | .call s _ _ _ => s
  | .exportNamedDecl s _ _ => s
  | .exportNamedSpecs s _ => s
  | .exportAll s _ => s
  | .exportDefaultDecl s _ _ => s
  | .plain s _ _ => s

def Node.stop : Node → Nat
  | .ident _ e _ => e
  | .taggedTemplate _ e _ _ _ => e
  | .call _ e _ _ => e
  | .exportNamedDecl _ e _ => e
  | .exportNamedSpecs _ e => e
  | .exportAll _ e => e
  | .exportDefaultDecl _ e _ => e
  | .plain _ e _ => e

/-- The visitor's tag test:
`node.tag.type === 'Identifier' && node.tag.name === 'css'`. -/
def isCssTag : Node → Bool
  | .ident _ _ name => name == "css".toList
  | _ => false

/-- A parsed `Program` (list of top-level statements). -/
structure Program where
  body : List Node

/-! ### Reference extraction-site list

`sitesIn top n` lists, in the walker's visit (pre-)order, every
`css`-tagged template in `n`, with its span, interpolation count, first
raw chunk, and `top`, the start offset of the nearest enclosing
top-level statement. -/

structure Site where
  sStart : Nat
  sStop : Nat
  nexprs : Nat
  nquasis : Nat
  raw0 : List Char
  top : Nat
deriving DecidableEq

mutual

def sitesIn (top : Nat) : Node → List Site
  | .ident _ _ _ => []
  | .taggedTemplate s e tag quasis exprs =>
      (if isCssTag tag then
        [⟨s, e, exprs.length, quasis.length, quasis.headD [], top⟩] else []) ++
        (sitesIn top tag ++ sitesInList top exprs)
  | .call _ _ callee args => sitesIn top callee ++ sitesInList top args
  | .exportNamedDecl _ _ decl => sitesIn top decl
  | .exportNamedSpecs _ _ => []
  | .exportAll _ _ => []
  | .exportDefaultDecl _ _ decl => sitesIn top decl
  | .plain _ _ children => sitesInList top children

def sitesInList (top : Nat) : List Node → List Site
  | [] => []
  | n :: ns => sitesIn top n ++ sitesInList top ns

end

def sitesOfBody : List Node → List Site
  | [] => []
  | stmt :: rest => sitesIn stmt.start stmt ++ sitesOfBody rest

/-- All sites of a program, each tagged with its own top-level
statement's start. -/
def sitesOf (tree : Program) : List Site :=
  sitesOfBody tree.body

/- Reference list of all call-expression start offsets, in walker visit
order (the walker only skips declaration-less export statements, which
contain no call expressions). -/
mutual

def callsIn : Node → List Nat
  | .ident _ _ _ => []
  | .taggedTemplate _ _ tag _ exprs => callsIn tag ++ callsInList exprs
  | .call s _ callee args => s :: (callsIn callee ++ callsInList args)
  | .exportNamedDecl _ _ decl => callsIn decl
  | .exportNamedSpecs _ _ => []
  | .exportAll _ _ => []
  | .exportDefaultDecl _ _ decl => callsIn decl
  | .plain _ _ children => callsInList children

def callsInList : List Node → List Nat
  | [] => []
  | n :: ns => callsIn n ++ callsInList ns

end

def callsOfBody : List Node → List Nat
  | [] => []
  | stmt :: rest => callsIn stmt ++ callsOfBody rest

def callsOf (tree : Program) : List Nat :=
  callsOfBody tree.body

/-! ## The `magic-string` model

`MagicString` keeps the original text as a partition into chunks;
edits mark chunks as `edited` (replacing their content) and insertions
accumulate on chunk boundaries.  We model exactly the operations the
repository uses: `overwrite`, `remove`, `prependLeft`, `prepend`,
`toString`.  Inserting strictly inside an already-edited chunk with
non-empty content is an error ("Cannot split a chunk that has already
been edited") — this is load-bearing for claim C3. -/

structure Chunk where
  cstart : Nat
  cend : Nat
  content : List Char
  outro : List Char
  edited : Bool
deriving DecidableEq

structure MagicStr where
  original : List Char
  intro : List Char
  chunks : List Chunk
deriving DecidableEq

/-- `new MagicString(code)`. -/
def MagicStr.mk0 (code : List Char) : MagicStr :=
  ⟨code, [], [⟨0, code.length, code, [], false⟩]⟩

def renderChunk (c : Chunk) : List Char := c.content ++ c.outro

/-- `toString()`. -/
def MagicStr.render (ms : MagicStr) : List Char :=
  ms.intro ++ (ms.chunks.map renderChunk).foldl (· ++ ·) []

def editedSplitErr : List Char :=
  "Cannot split a chunk that has already been edited".toList

/-- Split one chunk at an interior index.  An edited chunk with
non-empty content cannot be split (zero-length edited chunks can). -/
def splitChunkAt (orig : List Char) (c : Chunk) (idx : Nat) :
    Except (List Char) (List Chunk) :=
  if c.edited && !c.content.isEmpty then .error editedSplitErr
  else
    .ok [⟨c.cstart, idx, if c.edited then [] else sliceList orig c.cstart idx,
            [], c.edited⟩,
         ⟨idx, c.cend, if c.edited then [] else sliceList orig idx c.cend,
            c.outro, c.edited⟩]

def splitChunksAt (orig : List Char) (idx : Nat) :
    List Chunk → Except (List Char) (List Chunk)
  | [] => .ok []
  | c :: rest =>
      if c.cstart < idx && idx < c.cend then
        (splitChunkAt orig c idx).map (· ++ rest)
      else
        (splitChunksAt orig idx rest).map (c :: ·)

/-- `_split(index)`: ensure `idx` is a chunk boundary. -/
def MagicStr.split (ms : MagicStr) (idx : Nat) : Except (List Char) MagicStr :=
  (splitChunksAt ms.original idx ms.chunks).map (fun cs => { ms with chunks := cs })

/-- `overwrite(start, end, content)`: the first chunk of the range takes
the replacement content, the rest are blanked; intros/outros of the
range are discarded. -/
def MagicStr.overwrite (ms : MagicStr) (s e : Nat) (content : List Char) :
    Except (List Char) MagicStr :=
  if s < e && e ≤ ms.original.length then do
    let ms ← ms.split s
    let ms ← ms.split e
    .ok { ms with chunks := ms.chunks.map (fun c =>
      if s ≤ c.cstart && c.cend ≤ e then
        if c.cstart = s then { c with content := content, outro := [], edited := true }
        else { c with content := [], outro := [], edited := true }
      else c) }
  else .error "overwrite out of range".toList

/-- `remove(start, end)`. -/
def MagicStr.removeRange (ms : MagicStr) (s e : Nat) :
    Except (List Char) MagicStr :=
  if s < e && e ≤ ms.original.length then do
    let ms ← ms.split s
    let ms ← ms.split e
    .ok { ms with chunks := ms.chunks.map (fun c =>
      if s ≤ c.cstart && c.cend ≤ e then
        { c with content := [], outro := [], edited := true }
      else c) }
  else .error "remove out of range".toList

/-- `prependLeft(index, content)`: content attaches (before previously
attached content) to the outro of the chunk ending at `index`, or to
the string's intro when no chunk ends there (`index = 0`). -/
def MagicStr.prependLeft (ms : MagicStr) (idx : Nat) (content : List Char) :
    Except (List Char) MagicStr := do
  let ms ← ms.split idx
  if ms.chunks.any (fun c => c.cend = idx) then
    .ok { ms with chunks := ms.chunks.map (fun c =>
      if c.cend = idx then { c with outro := content ++ c.outro } else c) }
  else
    .ok { ms with intro := content ++ ms.intro }

/-- `prepend(content)`. -/
def MagicStr.prepend (ms : MagicStr) (content : List Char) : MagicStr :=
  { ms with intro := content ++ ms.intro }

/-! ## `modifyCodeForEvaluation` (transform-file.ts)

The walker state mirrors the closure variables of
`modifyCodeForEvaluation` (`stringForRollup`, `templateLiteralLocations`,
`i`, `hasDynamicCss`, `staticCssChunks`) plus two ghost logs recording,
verbatim, each hoisted-binding `prependLeft` and each pure-comment
`prependLeft` as it is performed (position and inserted text), so that
theorems can speak about the individual insertions. -/

def sentinelStr : List Char := "'SEVERED_CSS_HERE'".toList

def exportPref : List Char := "__severed_css_".toList

def pureComment : List Char := "/* @__PURE__ */ ".toList

/-- The hoisted binding inserted for site number `i` spanning `[s, e)`:
`` `export const ${exportPrefix}${i} = ${code.slice(node.start + 3, node.end)};\n` ``. -/
def bindingText (code : List Char) (i s e : Nat) : List Char :=
  "export const ".toList ++ exportPref ++ natToChars i ++ " = ".toList ++
    sliceList code (s + 3) e ++ ";\n".toList

structure WalkSt where
  ms : MagicStr
  locs : List (Nat × Nat)
  i : Nat
  hasDynamicCss : Bool
  staticCssChunks : List (List Char)
  bindingLog : List (Nat × List Char)
  pureLog : List Nat
deriving DecidableEq

/-- The record-keeping part of the `TaggedTemplateExpression` visitor
(after the two `MagicString` edits succeeded): push the template
location, log the hoisted binding, update the static/dynamic
classification, increment the site counter. -/
def cssRecord (s e : Nat) (quasis : List (List Char)) (nx : Nat)
    (target : Nat) (btxt : List Char) (ms : MagicStr) (st : WalkSt) : WalkSt :=
  let st := { st with
    ms := ms
    locs := st.locs ++ [(s, e)]
    bindingLog := st.bindingLog ++ [(target, btxt)] }
  let st :=
    if nx ≠ 0 then { st with hasDynamicCss := true }
    else if !st.hasDynamicCss then
      { st with staticCssChunks := st.staticCssChunks ++ [quasis.headD []] }
    else st
  { st with i := st.i + 1 }

mutual

def walkNode (code : List Char) (body0 top : Nat) :
    Node → WalkSt → Except (List Char) WalkSt
  | .ident _ _ _, st => .ok st
  | .taggedTemplate s e tag quasis exprs, st =>
      if isCssTag tag then do
        let ms ← st.ms.overwrite s e sentinelStr
        let target := if top ≠ 0 then top else body0
        let btxt := bindingText code st.i s e
        let ms ← ms.prependLeft target btxt
        let st := cssRecord s e quasis exprs.length target btxt ms st
        let st ← walkNode code body0 top tag st
        walkList code body0 top exprs st
      else do
        let st ← walkNode code body0 top tag st
        walkList code body0 top exprs st
  | .call s _ callee args, st => do
      let ms ← st.ms.prependLeft s pureComment
      let st := { st with ms := ms, pureLog := st.pureLog ++ [s] }
      let st ← walkNode code body0 top callee st
      walkList code body0 top args st
  | .exportNamedDecl s _ decl, st => do
      let ms ← st.ms.removeRange s decl.start
      walkNode code body0 top decl { st with ms := ms }
  | .exportNamedSpecs s e, st => do
      let ms ← st.ms.removeRange s e
      .ok { st with ms := ms }
  | .exportAll s e, st => do
      let ms ← st.ms.removeRange s e
      .ok { st with ms := ms }
  | .exportDefaultDecl s _ decl, st => do
      let ms ← st.ms.removeRange s decl.start
      walkNode code body0 top decl { st with ms := ms }
  | .plain _ _ children, st => walkList code body0 top children st

def walkList (code : List Char) (body0 top : Nat) :
    List Node → WalkSt → Except (List Char) WalkSt
  | [], st => .ok st
  | n :: ns, st => do
      let st ← walkNode code body0 top n st
      walkList code body0 top ns st

end

/-- Walk the program: each top-level statement is walked with itself as
the "nearest top-level statement" context (`findTopLevelStatement`
climbs to the child of `Program`). -/
def walkProgram (code : List Char) (body0 : Nat) (body : List Node)
    (st : WalkSt) : Except (List Char) WalkSt :=
  match body with
  | [] => .ok st
  | stmt :: rest => do
      let st ← walkNode code body0 stmt.start stmt st
      walkProgram code body0 rest st

structure ModifyResult where
  msCode : List Char
  locs : List (Nat × Nat)
  allStaticChunks : Option (List (List Char))
  bindingLog : List (Nat × List Char)
  pureLog : List Nat
deriving DecidableEq

/-- `modifyCodeForEvaluation`, given the source text and its parse tree
(the parser is external; a parse error would surface before this
point).  `allStaticChunks = none` models the JS value `false`. -/
def modifyCodeForEvaluation (code : List Char) (tree : Program) :
    Except (List Char) ModifyResult := do
  let body0 := ((tree.body.head?).map Node.start).getD 0
  let st0 : WalkSt := ⟨MagicStr.mk0 code, [], 0, false, [], [], []⟩
  let st ← walkProgram code body0 tree.body st0
  .ok ⟨st.ms.render, st.locs,
       if st.hasDynamicCss then none else some st.staticCssChunks,
       st.bindingLog, st.pureLog⟩

/-! ## `transform` (transform-file.ts)

The rollup sub-bundle plus `requireFromString` evaluation is an external
effect; it is abstracted as the `evalOutcome` argument: either a thrown
error (whose `message` the code wraps) or the harvested module exports
in `Object.entries` order. -/

inductive JsVal where
  | str (s : List Char)
  | other
deriving DecidableEq

/-- JSON string escaping as performed by `JSON.stringify` on a string. -/
def jsonEscChar (c : Char) : List Char :=
  if c = '"' then ['\\', '"']
  else if c = '\\' then ['\\', '\\']
  else if c = '\n' then ['\\', 'n']
  else if c = '\r' then ['\\', 'r']
  else if c = '\t' then ['\\', 't']
  else if c.toNat = 8 then ['\\', 'b']
  else if c.toNat = 12 then ['\\', 'f']
  else if c.toNat < 32 then
    ['\\', 'u', '0', '0', hexChar (c.toNat / 16), hexChar (c.toNat % 16)]
  else [c]

/-- `JSON.stringify(s)` for a string `s`. -/
def jsonQuote (s : List Char) : List Char :=
  '"' :: (s.flatMap jsonEscChar ++ ['"'])

/-- JS `Number(s)` restricted to the shapes that yield a usable array
index: all-digits (also empty, which is `0`); anything else is `NaN`
(`none`). -/
def jsNumberNat (s : List Char) : Option Nat :=
  if s.all (fun c => 48 ≤ c.toNat && c.toNat ≤ 57) then
    some (s.foldl (fun acc c => acc * 10 + (c.toNat - 48)) 0)
  else none

def jsUndefinedErr : List Char :=
  "TypeError: Cannot read properties of undefined".toList

/-- The static fast path:
`for (const [exportNum, css] of allStaticChunks.entries())`. -/
def staticLoop (emitF : List Char → List Char) (locs : List (Nat × Nat))
    (k : Nat) :
    List (List Char) → MagicStr → Except (List Char) (MagicStr × List (List Char))
  | [], out => .ok (out, [])
  | css :: rest, out => do
      let className := emitF css
      match locs.get? k with
      | none => .error jsUndefinedErr
      | some (s, e) => do
          let out ← out.overwrite s e (jsonQuote className)
          let (out, emits) ← staticLoop emitF locs (k + 1) rest out
          .ok (out, css :: emits)

/-- The evaluation path's harvest loop:
`for (const [exportName, css] of Object.entries(fileExports))`. -/
def exportsLoop (emitF : List Char → List Char) (locs : List (Nat × Nat)) :
    List (List Char × JsVal) → MagicStr →
      Except (List Char) (MagicStr × List (List Char))
  | [], out => .ok (out, [])
  | (name, v) :: rest, out =>
      if exportPref.isPrefixOf name then
        match v with
        | .other => .error "expected css to evaluate to string".toList
        | .str css => do
            let className := emitF css
            match (jsNumberNat (name.drop exportPref.length)).bind
                (fun k => locs.get? k) with
            | none => .error jsUndefinedErr
            | some (s, e) => do
                let out ← out.overwrite s e (jsonQuote className)
                let (out, emits) ← exportsLoop emitF locs rest out
                .ok (out, css :: emits)
      else exportsLoop emitF locs rest out

/-- `` stringForOutput.prepend(`import "${makeCSSFileName()}"\n`) ``. -/
def importLine (f : List Char) : List Char :=
  "import \"".toList ++ f ++ "\"\n".toList

/-- The per-file `transform`.  Returns `(none, [])` for the null result,
`(some rewrittenText, emitLog)` on success (`emitLog` lists the raw CSS
of each `emitCSS` call in call order), or the thrown error's message. -/
def transform (code : List Char) (tree : Program) (idArg : List Char)
    (emitF : List Char → List Char) (cssFileName : List Char)
    (evalOutcome : Except (List Char) (List (List Char × JsVal))) :
    Except (List Char) (Option (List Char) × List (List Char)) := do
  if !hasSub code "css`".toList then return (none, [])
  let m ← modifyCodeForEvaluation code tree
  if m.locs.length = 0 then return (none, [])
  let out0 := MagicStr.mk0 code
  match m.allStaticChunks with
  | some chunks => do
      let (out, emits) ← staticLoop emitF m.locs 0 chunks out0
      return (some ((out.prepend (importLine cssFileName)).render), emits)
  | none =>
    match evalOutcome with
    | .error msg =>
        .error ("Failed to evaluate `".toList ++ idArg ++
          "` while extracting css: ".toList ++ msg)
    | .ok fileExports => do
        let (out, emits) ← exportsLoop emitF m.locs fileExports out0
        return (some ((out.prepend (importLine cssFileName)).render), emits)

/-! ## Reference (specification-level) descriptions used by the claims -/

/-- The insertion anchor actually used for a site:
`nearestTopLevelStatement?.start || tree.body[0].start` (the `||`
falls through to `body[0].start` when the statement starts at offset 0). -/
def siteTarget (body0 : Nat) (s : Site) : Nat :=
  if s.top ≠ 0 then s.top else body0

/-- Reference list of hoisted bindings for a site list, numbering the
sites consecutively from `i0`. -/
def bindingsRef (code : List Char) (body0 : Nat) : Nat → List Site → List (Nat × List Char)
  | _, [] => []
  | i0, s :: rest =>
      (siteTarget body0 s, bindingText code i0 s.sStart s.sStop) ::
        bindingsRef code body0 (i0 + 1) rest

def locsOfSites (sites : List Site) : List (Nat × Nat) :=
  sites.map (fun s => (s.sStart, s.sStop))

/-- Reference binding list anchored at each site's own nearest top-level
statement (no `|| body[0].start` fallback). -/
def bindingsTop (code : List Char) : Nat → List Site → List (Nat × List Char)
  | _, [] => []
  | i0, s :: rest =>
      (s.top, bindingText code i0 s.sStart s.sStop) :: bindingsTop code (i0 + 1) rest

/-- The site ranges are in source order, non-overlapping, within the
text, and start no earlier than `a`. -/
def rangesChainB (a len : Nat) : List (Nat × Nat) → Bool
  | [] => true
  | (s, e) :: rest => a ≤ s && s < e && e ≤ len && rangesChainB e len rest

/-- Same chain condition for ranges paired with replacement texts. -/
def chainFromB (a len : Nat) : List ((Nat × Nat) × List Char) → Bool
  | [] => true
  | ((s, e), _) :: rest => a ≤ s && s < e && e ≤ len && chainFromB e len rest

/-- Reference rewritten text: the original from `a` on, with each range
`[s, e)` replaced by its replacement text. -/
def spliceAll (code : List Char) : Nat → List ((Nat × Nat) × List Char) → List Char
  | a, [] => code.drop a
  | a, ((s, e), r) :: rest => sliceList code a s ++ r ++ spliceAll code e rest

/-- Sequential `overwrite` calls. -/
def applyOWs : List ((Nat × Nat) × List Char) → MagicStr → Except (List Char) MagicStr
  | [], ms => .ok ms
  | ((s, e), r) :: rest, ms => do applyOWs rest (← ms.overwrite s e r)

/-- The harvested-exports list is canonical: one entry per site index
`k, k+1, …` in ascending order, each named `__severed_css_<k>` (the
numeric suffix parses back to `k`) with a string value.  This is the
interface contract of the external sub-bundler + evaluator pair (rollup
emits the entry's named exports; the walker creates them in site
order). -/
def canonExpB : Nat → List (List Char × JsVal) → List (List Char) → Bool
  | _, [], [] => true
  | k, (name, v) :: rest, css :: cssRest =>
      exportPref.isPrefixOf name &&
        jsNumberNat (name.drop exportPref.length) == some k &&
        (match v with | .str s => s == css | .other => false) &&
        canonExpB (k + 1) rest cssRest
  | _, _, _ => false

/-- Parser invariant: a template literal has one more raw chunk than it
has interpolation expressions. -/
def quasisWFB (tree : Program) : Bool :=
  (sitesOf tree).all (fun s => s.nquasis == s.nexprs + 1)

/-- Parser invariant: the first top-level statement starts no later than
any other top-level statement. -/
def bodyMinB (tree : Program) : Bool :=
  tree.body.all (fun stmt => ((tree.body.head?.map Node.start).getD 0) ≤ stmt.start)

/-! ## Walker characterization

`Extends code body0 st st' sites calls` says: a successful walk step
turned state `st` into `st'` by appending exactly the data of `sites`
and `calls` to the accumulator fields (`ms` evolves separately). -/

def staticPrefix (sites : List Site) : List (List Char) :=
  (sites.takeWhile (fun s => s.nexprs == 0)).map Site.raw0

/-- Buffer well-formedness for the plugin layer: every key passed the
extension whitelist (all insertions go through it). -/
def mapExtOkB (m : List (List Char × List Char)) : Bool :=
  m.all (fun p => extOk p.1)

/-- The id up to (excluding) its first `'?'` — plain description of the
stripped id used by the amended C10. -/
def strippedId (id : List Char) : List Char :=
  id.takeWhile (fun c => c ≠ '?')

/-- The id carries a `severed` query parameter with a non-empty value
(JS truthiness of `params.get('severed')`). -/
def severedTruthyB (id : List Char) : Bool :=
  match getParam (parseQuery (queryPart id)) "severed".toList with
  | some (_ :: _) => true
  | _ => false

/-! ### Invariant for sequential `overwrite`s on a fresh `MagicStr` -/

def OWInv (code : List Char) (a : Nat) (done : List Chunk) (ms : MagicStr) : Prop :=
  ms.original = code ∧ ms.intro = [] ∧ a ≤ code.length ∧
  ms.chunks = done ++
    (if a < code.length then
      [⟨a, code.length, sliceList code a code.length, [], false⟩] else []) ∧
  ∀ c ∈ done, c.cend ≤ a ∧ c.cstart < c.cend

/-! ### Concrete programs (used to instantiate the theorems)

`exCodeA`: the repository's own fixture
"hoists nested css declarations to right above the nearest top-level
statement" — two static sites, one call expression.

`exCodeB`: `const a = css`${f()}`` — a call expression inside a `css`
interpolation.

`exCodeC`: `const a = css`${b}`` — one dynamic site. -/

def exCodeA : List Char :=
  ("console.log(css`asdf`)\n\x7b\n  const foo = () => \x7b\n" ++
   "    if (h) return css`background: red`;\n  \x7d\n\x7d").toList

def exTreeA : Program :=
  ⟨[ .plain 0 22 [.call 0 22 (.plain 0 11 [])
       [.taggedTemplate 12 21 (.ident 12 15 "css".toList) ["asdf".toList] []]],
     .plain 23 92 [.plain 25 89 [.plain 47 86
       [.taggedTemplate 65 85 (.ident 65 68 "css".toList)
         ["background: red".toList] []]]] ]⟩

def exCodeB : List Char := "const a = css`${f()}`".toList

def exTreeB : Program :=
  ⟨[ .plain 0 21 [.taggedTemplate 10 21 (.ident 10 13 "css".toList)
       ["".toList, "".toList] [.call 16 19 (.ident 16 17 "f".toList) []]] ]⟩

def exCodeC : List Char := "const a = css`${b}`".toList

def exTreeC : Program :=
  ⟨[ .plain 0 19 [.taggedTemplate 10 19 (.ident 10 13 "css".toList)
       ["".toList, "".toList] [.ident 16 17 "b".toList]] ]⟩

instance {α β : Type} [DecidableEq α] [DecidableEq β] :
    DecidableEq (Except α β) := fun x y =>
  match x, y with
  | .error a, .error b => decidable_of_iff (a = b) (by simp)
  | .ok a, .ok b => decidable_of_iff (a = b) (by simp)
  | .error _, .ok _ => isFalse (by simp)
  | .ok _, .error _ => isFalse (by simp)

def Extends (code : List Char) (body0 : Nat) (st st' : WalkSt)
    (sites : List Site) (calls : List Nat) : Prop :=
  st'.locs = st.locs ++ locsOfSites sites ∧
  st'.i = st.i + sites.length ∧
  st'.bindingLog = st.bindingLog ++ bindingsRef code body0 st.i sites ∧
  st'.pureLog = st.pureLog ++ calls ∧
  st'.hasDynamicCss = (st.hasDynamicCss || sites.any (fun s => s.nexprs != 0)) ∧
  st'.staticCssChunks = st.staticCssChunks ++
    (if st.hasDynamicCss then [] else staticPrefix sites)

theorem bindingsRef_append (code : List Char) (body0 : Nat) :
    ∀ (l1 l2 : List Site) (i0 : Nat),
    bindingsRef code body0 i0 (l1 ++ l2) =
      bindingsRef code body0 i0 l1 ++ bindingsRef code body0 (i0 + l1.length) l2
  | [], l2, i0 => by simp [bindingsRef]
  | s :: rest, l2, i0 => by
      simp only [List.cons_append, bindingsRef, List.append_eq]
      rw [bindingsRef_append code body0 rest l2 (i0 + 1)]
      have hn : i0 + (s :: rest).length = (i0 + 1) + rest.length := by
        simp [List.length_cons]; omega
      rw [hn]

theorem takeWhile_append_all {α : Type} (p : α → Bool) :
    ∀ (l1 l2 : List α), l1.all p = true →
    (l1 ++ l2).takeWhile p = l1 ++ l2.takeWhile p
  | [], l2, _ => by simp
  | a :: rest, l2, h => by
      simp only [List.all_cons, Bool.and_eq_true] at h
      simp [List.takeWhile, h.1, takeWhile_append_all p rest l2 h.2]

theorem takeWhile_append_stop {α : Type} (p : α → Bool) :
    ∀ (l1 l2 : List α), l1.all p = false →
    (l1 ++ l2).takeWhile p = l1.takeWhile p
  | [], _, h => by simp at h
  | a :: rest, l2, h => by
      simp only [List.all_cons, Bool.and_eq_false_iff] at h
      cases hpa : p a with
      | false => simp [List.takeWhile, hpa]
      | true =>
        have : rest.all p = false := by
          rcases h with h | h
          · rw [hpa] at h; cases h
          · exact h
        simp [List.takeWhile, hpa, takeWhile_append_stop p rest l2 this]

theorem takeWhile_eq_self_of_all {α : Type} (p : α → Bool) :
    ∀ (l : List α), l.all p = true → l.takeWhile p = l
  | [], _ => rfl
  | a :: rest, h => by
      simp only [List.all_cons, Bool.and_eq_true] at h
      simp [List.takeWhile, h.1, takeWhile_eq_self_of_all p rest h.2]

theorem any_dyn_eq_not_all {l : List Site} :
    l.any (fun s => s.nexprs != 0) = !(l.all (fun s => s.nexprs == 0)) := by
  induction l with
  | nil => rfl
  | cons s rest ih => simp [List.any_cons, List.all_cons, ih]; cases s.nexprs <;> simp

theorem staticPrefix_append (l1 l2 : List Site) :
    staticPrefix (l1 ++ l2) =
      if l1.all (fun s => s.nexprs == 0) then staticPrefix l1 ++ staticPrefix l2
      else staticPrefix l1 := by
  by_cases h : l1.all (fun s => s.nexprs == 0) = true
  · simp [staticPrefix, h, takeWhile_append_all _ l1 l2 h,
      takeWhile_eq_self_of_all _ l1 h]
  · have h' : l1.all (fun s => s.nexprs == 0) = false := by
      cases hx : l1.all (fun s => s.nexprs == 0)
      · rfl
      · exact absurd hx h
    simp [staticPrefix, h', takeWhile_append_stop _ l1 l2 h']

theorem Extends.refl (code : List Char) (body0 : Nat) (st : WalkSt) :
    Extends code body0 st st [] [] := by
  simp [Extends, locsOfSites, bindingsRef, staticPrefix]

theorem Extends.comp {code : List Char} {body0 : Nat} {st st1 st2 : WalkSt}
    {l1 l2 : List Site} {c1 c2 : List Nat}
    (h1 : Extends code body0 st st1 l1 c1)
    (h2 : Extends code body0 st1 st2 l2 c2) :
    Extends code body0 st st2 (l1 ++ l2) (c1 ++ c2) := by
  obtain ⟨a1, b1, d1, e1, f1, g1⟩ := h1
  obtain ⟨a2, b2, d2, e2, f2, g2⟩ := h2
  refine ⟨?_, ?_, ?_, ?_, ?_, ?_⟩
  · simp [a2, a1, locsOfSites]
  · simp [b2, b1]; omega
  · rw [d2, d1, b1, bindingsRef_append]; simp
  · simp [e2, e1]
  · rw [f2, f1]
    simp [List.any_append, Bool.or_assoc]
  · rw [g2, g1, f1, staticPrefix_append]
    by_cases h0 : st.hasDynamicCss = true
    · simp [h0]
    · have h0' : st.hasDynamicCss = false := by
        cases hx : st.hasDynamicCss
        · rfl
        · exact absurd hx h0
      simp only [h0', Bool.false_or]
      rw [any_dyn_eq_not_all]
      cases hall : l1.all (fun s => s.nexprs == 0) <;> simp [hall]

theorem exceptBindOk {α β : Type} {x : Except (List Char) α}
    {f : α → Except (List Char) β} {b : β}
    (h : x >>= f = .ok b) : ∃ a, x = .ok a ∧ f a = .ok b := by
  cases x with
  | error msg => simp [Bind.bind, Except.bind] at h
  | ok a => exact ⟨a, rfl, by simpa [Bind.bind, Except.bind] using h⟩

theorem okBind {α β : Type} (a : α) (f : α → Except (List Char) β) :
    ((Except.ok a : Except (List Char) α) >>= f) = f a := rfl

/-- `Extends` for a step that only changes `ms`. -/
theorem extendsMs (code : List Char) (body0 : Nat) (st : WalkSt) (ms : MagicStr) :
    Extends code body0 st { st with ms := ms } [] [] := by
  simp [Extends, locsOfSites, bindingsRef, staticPrefix]

/-- `Extends` for the pure-comment step of the `CallExpression` visitor. -/
theorem extendsPure (code : List Char) (body0 : Nat) (st : WalkSt)
    (ms : MagicStr) (s : Nat) :
    Extends code body0 st { st with ms := ms, pureLog := st.pureLog ++ [s] } [] [s] := by
  simp [Extends, locsOfSites, bindingsRef, staticPrefix]

/-- `Extends` for the `cssRecord` step of the tagged-template visitor. -/
theorem extendsCss (code : List Char) (body0 top : Nat) (st : WalkSt)
    (ms : MagicStr) (s e : Nat) (quasis : List (List Char)) (nx : Nat) :
    Extends code body0 st
      (cssRecord s e quasis nx (if top ≠ 0 then top else body0)
        (bindingText code st.i s e) ms st)
      [⟨s, e, nx, quasis.length, quasis.headD [], top⟩] [] := by
  have htarget : (if top ≠ 0 then top else body0) =
      siteTarget body0 ⟨s, e, nx, quasis.length, quasis.headD [], top⟩ := rfl
  by_cases hnx : nx ≠ 0
  · have hb : (nx == 0) = false := beq_eq_false_iff_ne.mpr hnx
    simp [Extends, cssRecord, locsOfSites, bindingsRef, staticPrefix, hnx, hb,
      List.takeWhile, htarget]
  · have hnx0 : nx = 0 := by omega
    subst hnx0
    by_cases h0 : st.hasDynamicCss = true
    · simp [Extends, cssRecord, locsOfSites, bindingsRef, staticPrefix, h0,
        List.takeWhile, htarget]
    · have h0' : st.hasDynamicCss = false := by
        cases hx : st.hasDynamicCss
        · rfl
        · exact absurd hx h0
      simp [Extends, cssRecord, locsOfSites, bindingsRef, staticPrefix, h0',
        List.takeWhile, htarget]

mutual

theorem walkNode_spec (code : List Char) (body0 top : Nat) :
    ∀ (n : Node) (st st' : WalkSt),
    walkNode code body0 top n st = .ok st' →
    Extends code body0 st st' (sitesIn top n) (callsIn n)
  | .ident s e nm, st, st', h => by
      simp only [walkNode] at h
      cases h
      simpa [sitesIn, callsIn] using Extends.refl code body0 st
  | .taggedTemplate s e tag quasis exprs, st, st', h => by
      by_cases hct : isCssTag tag = true
      · cases tag with
        | ident ts te tnm =>
          rw [walkNode, if_pos hct] at h
          obtain ⟨ms1, hov, h⟩ := exceptBindOk h
          obtain ⟨ms2, hpl, h⟩ := exceptBindOk h
          simp only [] at h
          rw [walkNode, okBind] at h
          have e1 := extendsCss code body0 top st ms2 s e quasis exprs.length
          have e2 := walkList_spec code body0 top exprs _ _ h
          have := e1.comp e2
          simpa [sitesIn, callsIn, hct] using this
        | taggedTemplate _ _ _ _ _ => simp [isCssTag] at hct
        | call _ _ _ _ => simp [isCssTag] at hct
        | exportNamedDecl _ _ _ => simp [isCssTag] at hct
        | exportNamedSpecs _ _ => simp [isCssTag] at hct
        | exportAll _ _ => simp [isCssTag] at hct
        | exportDefaultDecl _ _ _ => simp [isCssTag] at hct
        | plain _ _ _ => simp [isCssTag] at hct
      · rw [walkNode, if_neg hct] at h
        obtain ⟨st1, htag, h⟩ := exceptBindOk h
        have e1 := walkNode_spec code body0 top tag _ _ htag
        have e2 := walkList_spec code body0 top exprs _ _ h
        have hct' : isCssTag tag = false := by
          cases hx : isCssTag tag
          · rfl
          · exact absurd hx hct
        simpa [sitesIn, callsIn, hct'] using e1.comp e2
  | .call s e callee args, st, st', h => by
      rw [walkNode] at h
      obtain ⟨ms1, hms, h⟩ := exceptBindOk h
      obtain ⟨st2, hc, h⟩ := exceptBindOk h
      have e1 := extendsPure code body0 st ms1 s
      have e2 := walkNode_spec code body0 top callee _ _ hc
      have e3 := walkList_spec code body0 top args _ _ h
      simpa [sitesIn, callsIn] using e1.comp (e2.comp e3)
  | .exportNamedDecl s e decl, st, st', h => by
      rw [walkNode] at h
      obtain ⟨ms1, hms, h⟩ := exceptBindOk h
      have e1 := extendsMs code body0 st ms1
      have e2 := walkNode_spec code body0 top decl _ _ h
      simpa [sitesIn, callsIn] using e1.comp e2
  | .exportNamedSpecs s e, st, st', h => by
      rw [walkNode] at h
      obtain ⟨ms1, hms, h⟩ := exceptBindOk h
      cases h
      simpa [sitesIn, callsIn] using extendsMs code body0 st ms1
  | .exportAll s e, st, st', h => by
      rw [walkNode] at h
      obtain ⟨ms1, hms, h⟩ := exceptBindOk h
      cases h
      simpa [sitesIn, callsIn] using extendsMs code body0 st ms1
  | .exportDefaultDecl s e decl, st, st', h => by
      rw [walkNode] at h
      obtain ⟨ms1, hms, h⟩ := exceptBindOk h
      have e1 := extendsMs code body0 st ms1
      have e2 := walkNode_spec code body0 top decl _ _ h
      simpa [sitesIn, callsIn] using e1.comp e2
  | .plain s e children, st, st', h => by
      rw [walkNode] at h
      simpa [sitesIn, callsIn] using walkList_spec code body0 top children _ _ h

theorem walkList_spec (code : List Char) (body0 top : Nat) :
    ∀ (ns : List Node) (st st' : WalkSt),
    walkList code body0 top ns st = .ok st' →
    Extends code body0 st st' (sitesInList top ns) (callsInList ns)
  | [], st, st', h => by
      simp only [walkList] at h
      cases h
      simpa [sitesInList, callsInList] using Extends.refl code body0 st
  | n :: ns, st, st', h => by
      rw [walkList] at h
      obtain ⟨st1, hn, h⟩ := exceptBindOk h
      have e1 := walkNode_spec code body0 top n _ _ hn
      have e2 := walkList_spec code body0 top ns _ _ h
      simpa [sitesInList, callsInList] using e1.comp e2

end

theorem walkProgram_spec (code : List Char) (body0 : Nat) :
    ∀ (body : List Node) (st st' : WalkSt),
    walkProgram code body0 body st = .ok st' →
    Extends code body0 st st' (sitesOfBody body) (callsOfBody body)
  | [], st, st', h => by
      simp only [walkProgram] at h
      cases h
      simpa [sitesOfBody, callsOfBody] using Extends.refl code body0 st
  | stmt :: rest, st, st', h => by
      rw [walkProgram] at h
      obtain ⟨st1, hn, h⟩ := exceptBindOk h
      have e1 := walkNode_spec code body0 stmt.start stmt _ _ hn
      have e2 := walkProgram_spec code body0 rest _ _ h
      simpa [sitesOfBody, callsOfBody] using e1.comp e2

/-- The successful result of `modifyCodeForEvaluation`, in terms of the
reference site and call lists. -/
theorem modify_spec (code : List Char) (tree : Program) (r : ModifyResult)
    (h : modifyCodeForEvaluation code tree = .ok r) :
    r.locs = locsOfSites (sitesOf tree) ∧
    r.bindingLog =
      bindingsRef code ((tree.body.head?.map Node.start).getD 0) 0 (sitesOf tree) ∧
    r.pureLog = callsOf tree ∧
    r.allStaticChunks =
      (if (sitesOf tree).all (fun s => s.nexprs == 0) then
        some (staticPrefix (sitesOf tree)) else none) := by
  unfold modifyCodeForEvaluation at h
  obtain ⟨st, hw, h⟩ := exceptBindOk h
  obtain ⟨e1, e2, e3, e4, e5, e6⟩ :=
    walkProgram_spec code ((tree.body.head?.map Node.start).getD 0) tree.body _ _ hw
  cases h
  refine ⟨by simpa [sitesOf] using e1, by simpa [sitesOf] using e3,
    by simpa [callsOf] using e4, ?_⟩
  simp only [sitesOf]
  rw [e5, e6]
  simp only [Bool.false_or, List.nil_append]
  rw [any_dyn_eq_not_all]
  cases hall : (sitesOfBody tree.body).all (fun s => s.nexprs == 0) <;> simp [hall]

/-- In a file with no dynamic site, the static-prefix list covers every
site. -/
theorem staticPrefix_of_all (sites : List Site)
    (h : sites.all (fun s => s.nexprs == 0) = true) :
    staticPrefix sites = sites.map Site.raw0 := by
  simp [staticPrefix, takeWhile_eq_self_of_all _ sites h]

/- Every site collected inside node `n` carries the context `top` as
its `top` field. -/
mutual

theorem sitesIn_top (top : Nat) :
    ∀ (n : Node) (s : Site), s ∈ sitesIn top n → s.top = top
  | .ident _ _ _, s, h => by simp [sitesIn] at h
  | .taggedTemplate ns ne tag quasis exprs, s, h => by
      simp only [sitesIn] at h
      rcases List.mem_append.mp h with h | h
      · by_cases hct : isCssTag tag = true
        · simp [hct] at h
          simp [h]
        · have hct' : isCssTag tag = false := by
            cases hx : isCssTag tag
            · rfl
            · exact absurd hx hct
          simp [hct'] at h
      · rcases List.mem_append.mp h with h | h
        · exact sitesIn_top top tag s h
        · exact sitesInList_top top exprs s h
  | .call _ _ callee args, s, h => by
      simp only [sitesIn] at h
      rcases List.mem_append.mp h with h | h
      · exact sitesIn_top top callee s h
      · exact sitesInList_top top args s h
  | .exportNamedDecl _ _ decl, s, h => sitesIn_top top decl s h
  | .exportNamedSpecs _ _, s, h => by simp [sitesIn] at h
  | .exportAll _ _, s, h => by simp [sitesIn] at h
  | .exportDefaultDecl _ _ decl, s, h => sitesIn_top top decl s h
  | .plain _ _ children, s, h => sitesInList_top top children s h

theorem sitesInList_top (top : Nat) :
    ∀ (ns : List Node) (s : Site), s ∈ sitesInList top ns → s.top = top
  | [], s, h => by simp [sitesInList] at h
  | n :: ns, s, h => by
      simp only [sitesInList] at h
      rcases List.mem_append.mp h with h | h
      · exact sitesIn_top top n s h
      · exact sitesInList_top top ns s h

end

/-- Every site's `top` is the start offset of one of the program's
top-level statements. -/
theorem sitesOf_top (tree : Program) :
    ∀ s ∈ sitesOf tree, ∃ stmt ∈ tree.body, s.top = stmt.start := by
  suffices H : ∀ body s, s ∈ sitesOfBody body → ∃ stmt ∈ body, s.top = stmt.start by
    intro s hs
    exact H tree.body s hs
  intro body
  induction body with
  | nil => intro s hs; simp [sitesOfBody] at hs
  | cons stmt rest ih =>
      intro s hs
      simp only [sitesOfBody] at hs
      rcases List.mem_append.mp hs with h | h
      · exact ⟨stmt, List.mem_cons_self _ _, sitesIn_top stmt.start stmt s h⟩
      · obtain ⟨st2, hm, he⟩ := ih s h
        exact ⟨st2, List.mem_cons_of_mem _ hm, he⟩

theorem bindingsRef_eq_bindingsTop (code : List Char) (body0 : Nat) :
    ∀ (sites : List Site) (i0 : Nat),
    (∀ s ∈ sites, siteTarget body0 s = s.top) →
    bindingsRef code body0 i0 sites = bindingsTop code i0 sites
  | [], _, _ => rfl
  | s :: rest, i0, h => by
      simp only [bindingsRef, bindingsTop]
      rw [h s (List.mem_cons_self _ _),
        bindingsRef_eq_bindingsTop code body0 rest (i0 + 1)
          (fun s hs => h s (List.mem_cons_of_mem _ hs))]

/-- Under the parser invariant that the first top-level statement starts
first, the `||` fallback never changes the anchor. -/
theorem siteTarget_eq_top (tree : Program) (hmin : bodyMinB tree = true) :
    ∀ s ∈ sitesOf tree,
      siteTarget ((tree.body.head?.map Node.start).getD 0) s = s.top := by
  intro s hs
  unfold siteTarget
  by_cases h : s.top ≠ 0
  · simp [h]
  · have h0 : s.top = 0 := by omega
    obtain ⟨stmt, hmem, he⟩ := sitesOf_top tree s hs
    have hle : ((tree.body.head?.map Node.start).getD 0) ≤ stmt.start := by
      rw [bodyMinB, List.all_eq_true] at hmin
      simpa using hmin stmt hmem
    have : ((tree.body.head?.map Node.start).getD 0) = 0 := by omega
    simp [h0, this]

/-- C1: for every parseable source and every `css` tagged-template site
the classifier records, the file takes the static path (`allStaticChunks`
is not the JS `false`) iff every site's template has zero interpolation
expressions; on the static path the recorded static values are, site by
site in source-walk order, the raw text of each template's first chunk —
which, under the parser invariant `quasisWFB`, is its sole chunk
(`nquasis = 1` whenever `nexprs = 0`). -/
theorem claim_C1 (code : List Char) (tree : Program) (r : ModifyResult)
    (hq : quasisWFB tree = true)
    (h : modifyCodeForEvaluation code tree = .ok r) :
    (r.allStaticChunks ≠ none ↔ ∀ s ∈ sitesOf tree, s.nexprs = 0) ∧
    (∀ chunks, r.allStaticChunks = some chunks →
      chunks = (sitesOf tree).map Site.raw0) ∧
    (∀ s ∈ sitesOf tree, s.nexprs = 0 → s.nquasis = 1) := by
  obtain ⟨-, -, -, h4⟩ := modify_spec code tree r h
  have hiff : ((sitesOf tree).all (fun s => s.nexprs == 0) = true) ↔
      (∀ s ∈ sitesOf tree, s.nexprs = 0) := by
    simp [List.all_eq_true]
  refine ⟨?_, ?_, ?_⟩
  · rw [h4]
    by_cases hall : (sitesOf tree).all (fun s => s.nexprs == 0) = true
    · rw [if_pos hall]
      exact iff_of_true (by simp) (hiff.mp hall)
    · have hf : (sitesOf tree).all (fun s => s.nexprs == 0) = false := by
        cases hx : (sitesOf tree).all (fun s => s.nexprs == 0)
        · rfl
        · exact absurd hx hall
      simp only [hf, if_false]
      exact iff_of_false (by simp) (fun hforall => hall (hiff.mpr hforall))
  · intro chunks hc
    rw [h4] at hc
    by_cases hall : (sitesOf tree).all (fun s => s.nexprs == 0) = true
    · rw [if_pos hall] at hc
      cases hc
      exact staticPrefix_of_all _ hall
    · rw [if_neg hall] at hc
      cases hc
  · intro s hs h0
    rw [quasisWFB, List.all_eq_true] at hq
    have := hq s hs
    simp only [beq_iff_eq] at this
    omega

/-- C1 witness: the repository's hoisting fixture — both sites static,
the static path is taken and records `["asdf", "background: red"]`. -/
theorem claim_C1_witness :
    quasisWFB exTreeA = true ∧
    ∃ r, modifyCodeForEvaluation exCodeA exTreeA = Except.ok r ∧
      r.allStaticChunks ≠ none ∧
      (∀ chunks, r.allStaticChunks = some chunks →
        chunks = ["asdf".toList, "background: red".toList]) :=
  ⟨by decide, _, rfl, by
    have h := claim_C1 exCodeA exTreeA _ (by decide) rfl
    refine ⟨h.1.mpr (by decide), fun chunks hc => ?_⟩
    rw [h.2.1 chunks hc]
    decide⟩

/-- C2: on every successful run the walker inserts (`prependLeft`)
exactly one hoisted binding per site, in source-walk order: the binding
for the site of zero-based index `i` has text
`` `export const __severed_css_<i> = <original template expression>;` ``
(the template expression is `code.slice(site.start + 3, site.end)`), and
its insertion anchor is the start offset of the site's nearest enclosing
top-level statement — a top-level position, never inside a nested block
(`bindingsTop` lists exactly these pairs; `bodyMinB` is the parser
invariant that the first top-level statement starts first, under which
the code's `|| tree.body[0].start` fallback never changes the anchor). -/
theorem claim_C2 (code : List Char) (tree : Program) (r : ModifyResult)
    (hmin : bodyMinB tree = true)
    (h : modifyCodeForEvaluation code tree = .ok r) :
    r.bindingLog = bindingsTop code 0 (sitesOf tree) := by
  obtain ⟨-, h2, -, -⟩ := modify_spec code tree r h
  rw [h2, bindingsRef_eq_bindingsTop code _ (sitesOf tree) 0
    (siteTarget_eq_top tree hmin)]

/-- C2 witness: in the hoisting fixture the two bindings are anchored at
offsets 0 (the `console.log` statement) and 23 (the block statement
enclosing the nested site), with suffixes 0 and 1. -/
theorem claim_C2_witness :
    bodyMinB exTreeA = true ∧
    ∃ r, modifyCodeForEvaluation exCodeA exTreeA = Except.ok r ∧
      r.bindingLog =
        [(0, "export const __severed_css_0 = `asdf`;\n".toList),
         (23, "export const __severed_css_1 = `background: red`;\n".toList)] :=
  ⟨by decide, _, rfl, by
    rw [claim_C2 exCodeA exTreeA _ (by decide) rfl]
    decide⟩

/-- C3 counterexample: the claim asserts the pure-call comment is
prepended to every call expression *including calls inside the
interpolations of `css` tagged templates*.  On
`const a = css`${f()}`` — a parseable program whose only call
expression sits inside a `css` interpolation — `modifyCodeForEvaluation`
does not produce a derivative program at all: the template span is
already overwritten when the walker reaches the inner call, so the
`prependLeft` for the annotation throws magic-string's "Cannot split a
chunk that has already been edited" error, and `transform` fails on
such files. -/
theorem claim_C3_counterexample :
    callsOf exTreeB = [16] ∧
    modifyCodeForEvaluation exCodeB exTreeB = Except.error editedSplitErr := by
  decide

/-- C3 (amended): whenever `modifyCodeForEvaluation` succeeds, the
pure-call comment `/* @__PURE__ */ ` was prepended (`prependLeft`)
exactly once at the start offset of every call expression of the source,
in walk order; sources with a call expression inside a `css` template
interpolation instead make the walk fail (see the counterexample). -/
theorem claim_C3_amended (code : List Char) (tree : Program) (r : ModifyResult)
    (h : modifyCodeForEvaluation code tree = .ok r) :
    r.pureLog = callsOf tree := by
  obtain ⟨-, -, h3, -⟩ := modify_spec code tree r h
  exact h3

/-- C3 (amended) witness: the hoisting fixture's one call expression
(`console.log(...)`, offset 0) is annotated. -/
theorem claim_C3_witness :
    ∃ r, modifyCodeForEvaluation exCodeA exTreeA = Except.ok r ∧
      r.pureLog = [0] :=
  ⟨_, rfl, by
    rw [claim_C3_amended exCodeA exTreeA _ rfl]
    decide⟩

/-- C7: every `emitCSS` call returns the class name
`severed-` + first 7 hex characters of the SHA-512 digest of the raw
CSS text, and the returned name depends only on that text (identical
CSS always yields the identical class name within one process,
whatever has been accumulated so far). -/
theorem claim_C7 (stylize : List Char → List Char) (acc acc2 inputCSS : List Char) :
    (emitCSSStep stylize acc inputCSS).1 =
      "severed-".toList ++ (sha512hex (utf8Encode inputCSS)).take 7 ∧
    (emitCSSStep stylize acc inputCSS).1 = (emitCSSStep stylize acc2 inputCSS).1 :=
  ⟨rfl, rfl⟩

/-- Cross-validation of the hash model against the repository's own
snapshot: the fixture CSS produces class `severed-d01cdb2`. -/
theorem emitClassName_fixture :
    emitClassName "\n  background: green;\n".toList = "severed-d01cdb2".toList := by
  decide

/-- Cross-validation: the dynamic fixture CSS produces `severed-18da80c`. -/
theorem emitClassName_fixture2 :
    emitClassName "\n  background: red\n".toList = "severed-18da80c".toList := by
  decide

theorem alGet_alDelete (m : List (List Char × List Char)) (k : List Char) :
    alGet (alDelete m k) k = none := by
  induction m with
  | nil => rfl
  | cons p rest ih =>
      obtain ⟨k', v⟩ := p
      by_cases hk : k' = k
      · rw [alDelete, if_pos hk]
        exact ih
      · rw [alDelete, if_neg hk, alGet, if_neg hk]
        exact ih

theorem alGet_append_none (l1 l2 : List (List Char × List Char)) (k : List Char)
    (h : alGet l1 k = none) : alGet (l1 ++ l2) k = alGet l2 k := by
  induction l1 with
  | nil => rfl
  | cons p rest ih =>
      obtain ⟨k', v⟩ := p
      by_cases hk : k' = k
      · rw [alGet, if_pos hk] at h
        cases h
      · rw [alGet, if_neg hk] at h
        rw [List.cons_append, alGet, if_neg hk]
        exact ih h

theorem alGet_alSet (m : List (List Char × List Char)) (k v : List Char) :
    alGet (alSet m k v) k = some v := by
  rw [alSet, alGet_append_none _ _ _ (alGet_alDelete m k)]
  simp [alGet]

theorem alGet_none_of_extOk (m : List (List Char × List Char)) (k : List Char)
    (hwf : mapExtOkB m = true) (hk : extOk k = false) : alGet m k = none := by
  induction m with
  | nil => rfl
  | cons p rest ih =>
      rw [mapExtOkB, List.all_cons, Bool.and_eq_true] at hwf
      have hne : p.1 ≠ k := fun he => by rw [he, hk] at hwf; cases hwf.1
      simp only [alGet, if_neg hne]
      exact ih hwf.2

/-- C8: the plugin `transform` hook first deletes the id's buffer entry
and re-writes it only on success: after a thrown inner transform or a
null result the buffer holds no entry for the id; after success the
entry is exactly the newly accumulated CSS (replacing, never appending
to, whatever was there); ids failing the extension whitelist leave the
buffer untouched — and (buffer well-formedness) such ids never have an
entry in the first place. -/
theorem claim_C8 (stylize : List Char → List Char)
    (m : List (List Char × List Char)) (id : List Char)
    (inner : Except (List Char) (Option (List Char) × List (List Char)))
    (hwf : mapExtOkB m = true) :
    (∀ e, inner = .error e →
      alGet (pluginTransform stylize m id inner).1 id = none) ∧
    (∀ emits, inner = .ok (none, emits) →
      alGet (pluginTransform stylize m id inner).1 id = none) ∧
    (∀ out emits, inner = .ok (some out, emits) → extOk id = true →
      alGet (pluginTransform stylize m id inner).1 id =
        some (accCss stylize emits)) ∧
    (extOk id = false →
      (pluginTransform stylize m id inner).1 = m ∧ alGet m id = none) := by
  by_cases hext : extOk id = true
  · refine ⟨?_, ?_, ?_, fun hco => absurd hext (by simp [hco])⟩
    · intro e he
      subst he
      simp [pluginTransform, hext, alGet_alDelete]
    · intro emits he
      subst he
      simp [pluginTransform, hext, alGet_alDelete]
    · intro out emits he _
      subst he
      simp [pluginTransform, hext, alGet_alSet]
  · have hext' : extOk id = false := by
      cases hx : extOk id
      · rfl
      · exact absurd hx hext
    have hnone := alGet_none_of_extOk m id hwf hext'
    exact ⟨fun e he => by simp [pluginTransform, hext', hnone],
      fun emits he => by simp [pluginTransform, hext', hnone],
      fun out emits he h1 => absurd h1 (by simp [hext']),
      fun _ => ⟨by simp [pluginTransform, hext'], hnone⟩⟩

/-- C8 witness: re-transforming `a.js` replaces its old buffer entry
with the newly accumulated CSS of the two emitted fragments. -/
theorem claim_C8_witness :
    mapExtOkB [("a.js".toList, "old".toList)] = true ∧
    alGet (pluginTransform (fun c => c) [("a.js".toList, "old".toList)]
      "a.js".toList
      (.ok (some "out".toList, ["b1".toList, "b2".toList]))).1 "a.js".toList =
      some "\n\nb1\n\nb2".toList :=
  ⟨by decide, by
    have h := (claim_C8 (fun c => c) [("a.js".toList, "old".toList)]
      "a.js".toList (.ok (some "out".toList, ["b1".toList, "b2".toList]))
      (by decide)).2.2.1 "out".toList ["b1".toList, "b2".toList] rfl (by decide)
    rw [h]
    decide⟩

/-- C9 counterexample: the claim says push-mode flattening preserves
alphanumerics including digits.  The code's regex is `/[^a-zA-Z]+/g`:
on the cwd-relative path `a1.js` the code produces
`a-js.severed.css` (the digit `1` is folded into a replaced run), while
the claim's non-alphanumeric flattening would give
`a1-js.severed.css`. -/
theorem claim_C9_counterexample :
    distFileName "a1.js".toList = "a-js.severed.css".toList ∧
    distFileNameClaim "a1.js".toList = "a1-js.severed.css".toList ∧
    distFileName "a1.js".toList ≠ distFileNameClaim "a1.js".toList := by
  decide

theorem scan_foldl (p : Char → Bool) :
    ∀ (l : List Char) (acc : List Char) (inRun : Bool),
    (l.foldl (fun st c =>
      if p c then (if st.2 then st.1 else st.1 ++ ['-'], true)
      else (st.1 ++ [c], false)) (acc, inRun)).1 = acc ++ scanGo p inRun l
  | [], acc, inRun => by simp [scanGo]
  | c :: rest, acc, inRun => by
      simp only [List.foldl_cons, scanGo]
      by_cases hp : p c = true
      · rw [if_pos hp, if_pos hp]
        cases inRun with
        | true => simpa using scan_foldl p rest acc true
        | false => simpa using scan_foldl p rest (acc ++ ['-']) true
      · rw [if_neg hp, if_neg hp]
        simpa using scan_foldl p rest (acc ++ [c]) false

theorem scanGo_true_dropWhile (p : Char → Bool) :
    ∀ l : List Char, scanGo p true l = scanGo p false (l.dropWhile p)
  | [] => by simp [scanGo, List.dropWhile]
  | c :: rest => by
      by_cases hp : p c = true
      · simp [scanGo, hp, List.dropWhile_cons, scanGo_true_dropWhile p rest]
      · simp [scanGo, hp, List.dropWhile_cons]

theorem dropWhile_len_le (p : Char → Bool) :
    ∀ l : List Char, (l.dropWhile p).length ≤ l.length
  | [] => by simp [List.dropWhile]
  | c :: rest => by
      rw [List.dropWhile_cons]
      by_cases hc : p c = true
      · rw [if_pos hc]
        have := dropWhile_len_le p rest
        simp only [List.length_cons]
        omega
      · rw [if_neg hc]

theorem scanGo_false_flatten (p : Char → Bool) :
    ∀ (fuel : Nat) (l : List Char), l.length ≤ fuel →
    scanGo p false l = flattenRunsGo p fuel l
  | fuel, [], _ => by cases fuel <;> simp [scanGo, flattenRunsGo]
  | 0, c :: rest, h => by simp at h
  | fuel + 1, c :: rest, h => by
      simp only [scanGo, flattenRunsGo]
      by_cases hp : p c = true
      · rw [if_pos hp, if_pos hp, scanGo_true_dropWhile]
        have hlen : (rest.dropWhile p).length ≤ fuel := by
          have h1 := dropWhile_len_le p rest
          have h2 : rest.length ≤ fuel := by simpa using h
          omega
        rw [scanGo_false_flatten p fuel _ hlen]
        simp
      · rw [if_neg hp, if_neg hp,
          scanGo_false_flatten p fuel rest (by simpa using h)]

theorem replaceRunsScan_eq_flatten (p : Char → Bool) (l : List Char) :
    replaceRunsScan p l = flattenRunsGo p l.length l := by
  rw [replaceRunsScan, scan_foldl p l [] false, List.nil_append,
    scanGo_false_flatten p l.length l (Nat.le_refl _)]

/-- C9 (amended): the push-mode asset file name is the cwd-relative
source path with every maximal run of non-LETTER characters (digits are
replaced too) collapsed to one `'-'`, plus `.severed.css`; the
rewritten file's import specifier is `./` followed by that asset file
name. -/
theorem claim_C9_amended (rel : List Char) :
    distFileName rel = flattenNonLetterRuns rel ++ ".severed.css".toList ∧
    pushImportSpecifier rel = "./".toList ++ distFileName rel := by
  refine ⟨?_, rfl⟩
  rw [distFileName, flattenNonLetterRuns, replaceRunsScan_eq_flatten]

/-- C10 counterexample: `a.js?severed=` carries a `severed` query
parameter (with empty value), yet `load` yields (`!severedParam` treats
the empty string as absent) even though the buffer holds an entry for
the stripped id. -/
theorem claim_C10_counterexample :
    getParam (parseQuery (queryPart "a.js?severed=".toList)) "severed".toList =
      some [] ∧
    loadHook [("a.js".toList, "X".toList)] (fun s => "/cwd/".toList ++ s)
      false "a.js?severed=".toList = none ∧
    alGet [("a.js".toList, "X".toList)] "a.js".toList = some "X".toList := by
  decide

theorem short_param (s : List Char) (h : s.length ≤ 1) :
    getParam (parseQuery s) "severed".toList = none ∨
    getParam (parseQuery s) "severed".toList = some [] := by
  match s, h with
  | [], _ => left; decide
  | [c], _ =>
      by_cases hq : c = '?'
      · subst hq; left; decide
      · by_cases ha : c = '&'
        · subst ha; left; decide
        · by_cases he : c = '='
          · subst he; left; decide
          · left
            have hh : ([c].head? = some '?') = False := by simp [hq]
            simp [parseQuery, splitAmp, getParam, firstIdx, hq, ha, he, hh]

theorem noQm_not_truthy (id : List Char) (h : firstIdx id '?' = none) :
    severedTruthyB id = false := by
  have hlen : (queryPart id).length ≤ 1 := by
    rw [queryPart, h]
    simp only [List.length_drop]
    omega
  rcases short_param (queryPart id) hlen with hp | hp <;>
    rw [severedTruthyB, hp]

theorem takeWhile_eq_take_firstIdx :
    ∀ (id : List Char) (i : Nat), firstIdx id '?' = some i →
    id.takeWhile (fun c => c ≠ '?') = id.take i
  | [], i, h => by simp [firstIdx] at h
  | c :: rest, i, h => by
      simp only [firstIdx] at h
      by_cases hc : c = '?'
      · rw [if_pos hc] at h
        cases h
        subst hc
        simp [List.takeWhile_cons]
      · rw [if_neg hc] at h
        cases hrest : firstIdx rest '?' with
        | none => rw [hrest] at h; simp at h
        | some j =>
            rw [hrest] at h
            have h' : j + 1 = i := by simpa using h
            subst h'
            simp only [List.takeWhile_cons, List.take_succ_cons]
            rw [if_pos (by simp [hc])]
            rw [takeWhile_eq_take_firstIdx rest j hrest]

/-- C10 (amended): in push mode `load` always yields; in pull mode it
yields for every id whose `severed` query parameter is missing OR has an
empty value — in particular for every id with no `'?'` at all — and for
ids carrying a non-empty `severed` value it returns the buffer entry
under the id stripped of its query suffix if that entry exists and is
non-empty, and otherwise the entry (empty or not) under the stripped id
joined onto the process working directory. -/
theorem claim_C10_amended (m : List (List Char × List Char))
    (joinCwd : List Char → List Char) (id : List Char) :
    (loadHook m joinCwd true id = none) ∧
    (firstIdx id '?' = none → loadHook m joinCwd false id = none) ∧
    (severedTruthyB id = false → loadHook m joinCwd false id = none) ∧
    (severedTruthyB id = true →
      loadHook m joinCwd false id =
        (match alGet m (strippedId id) with
          | some v => if v = [] then alGet m (joinCwd (strippedId id)) else some v
          | none => alGet m (joinCwd (strippedId id)))) := by
  have hfalse : ∀ (hne : severedTruthyB id = false), loadHook m joinCwd false id = none := by
    intro hne
    rw [severedTruthyB] at hne
    rw [loadHook]
    simp only [Bool.false_eq_true, if_false]
    cases hg : getParam (parseQuery (queryPart id)) "severed".toList with
    | none => rfl
    | some v =>
        cases v with
        | nil => rfl
        | cons c cs => rw [hg] at hne; simp at hne
  refine ⟨rfl, ?_, hfalse, ?_⟩
  · intro hqm
    exact hfalse (noQm_not_truthy id hqm)
  · intro htruthy
    have hv : ∃ c cs, getParam (parseQuery (queryPart id)) "severed".toList =
        some (c :: cs) := by
      rw [severedTruthyB] at htruthy
      cases hg : getParam (parseQuery (queryPart id)) "severed".toList with
      | none => rw [hg] at htruthy; simp at htruthy
      | some v =>
          cases v with
          | nil => rw [hg] at htruthy; simp at htruthy
          | cons c cs => exact ⟨c, cs, rfl⟩
    obtain ⟨c, cs, hg⟩ := hv
    have hqm : ∃ i, firstIdx id '?' = some i := by
      cases hx : firstIdx id '?' with
      | none =>
          have := noQm_not_truthy id hx
          rw [this] at htruthy
          cases htruthy
      | some i => exact ⟨i, rfl⟩
    obtain ⟨i, hqm⟩ := hqm
    have hstrip : idWithoutParam id = strippedId id := by
      rw [idWithoutParam, hqm, strippedId, takeWhile_eq_take_firstIdx id i hqm]
    rw [loadHook]
    simp only [Bool.false_eq_true, if_false, hg, hstrip]

theorem catLists_append (l1 l2 : List (List Char)) :
    catLists (l1 ++ l2) = catLists l1 ++ catLists l2 := by
  induction l1 with
  | nil => rfl
  | cons x xs ih => simp [catLists, ih]

theorem foldl_append_cat (L : List (List Char)) :
    ∀ acc : List Char, L.foldl (· ++ ·) acc = acc ++ catLists L := by
  induction L with
  | nil => intro acc; simp [catLists]
  | cons x xs ih => intro acc; simp [catLists, ih, List.append_assoc]

theorem render_eq (ms : MagicStr) :
    ms.render = ms.intro ++ catLists (ms.chunks.map renderChunk) := by
  rw [MagicStr.render, foldl_append_cat, List.nil_append]

theorem sliceList_self (code : List Char) (a : Nat) : sliceList code a a = [] := by
  simp [sliceList]

theorem sliceList_to_end (code : List Char) (a : Nat) :
    sliceList code a code.length = code.drop a := by
  rw [sliceList]
  exact List.take_of_length_le (by simp [List.length_drop])

theorem hasSub_ne_nil (code : List Char)
    (h : hasSub code "css`".toList = true) : code ≠ [] := by
  intro hc
  subst hc
  simp [hasSub, List.tails, List.isPrefixOf] at h

theorem splitChunksAt_skip (orig : List Char) (idx : Nat) :
    ∀ (l1 l2 : List Chunk),
    (∀ c ∈ l1, (c.cstart < idx && idx < c.cend) = false) →
    splitChunksAt orig idx (l1 ++ l2) =
      (splitChunksAt orig idx l2).map (l1 ++ ·) := by
  intro l1
  induction l1 with
  | nil =>
      intro l2 _
      cases hx : splitChunksAt orig idx l2 <;> simp [Except.map, hx]
  | cons c cs ih =>
      intro l2 hmiss
      rw [List.cons_append, splitChunksAt]
      rw [if_neg (by
        have := hmiss c (List.mem_cons_self _ _)
        simp only [this]
        simp)]
      rw [ih l2 (fun d hd => hmiss d (List.mem_cons_of_mem _ hd))]
      cases hx : splitChunksAt orig idx l2 <;> simp [Except.map, hx]

theorem splitChunksAt_single_hit (orig : List Char) (idx : Nat) (c : Chunk)
    (hcontains : (c.cstart < idx && idx < c.cend) = true) (hne : c.edited = false) :
    splitChunksAt orig idx [c] =
      .ok [⟨c.cstart, idx, sliceList orig c.cstart idx, [], false⟩,
           ⟨idx, c.cend, sliceList orig idx c.cend, c.outro, false⟩] := by
  rw [splitChunksAt, if_pos (by simp [hcontains]), splitChunkAt]
  rw [if_neg (by simp [hne])]
  simp [Except.map, hne]

theorem splitChunksAt_single_miss (orig : List Char) (idx : Nat) (c : Chunk)
    (hmiss : (c.cstart < idx && idx < c.cend) = false) :
    splitChunksAt orig idx [c] = .ok [c] := by
  rw [splitChunksAt, if_neg (by simp only [hmiss]; simp)]
  simp [splitChunksAt, Except.map]

theorem mapIdAll (f : Chunk → Chunk) :
    ∀ l : List Chunk, (∀ c ∈ l, f c = c) → l.map f = l := by
  intro l
  induction l with
  | nil => intro _; rfl
  | cons c cs ih =>
      intro h
      rw [List.map_cons, h c (List.mem_cons_self _ _),
        ih (fun d hd => h d (List.mem_cons_of_mem _ hd))]

/-- A chunk starting before the overwritten range is not marked. -/
theorem markSkipLeft (s e : Nat) (r : List Char) (c : Chunk)
    (h : c.cstart < s) :
    (if s ≤ c.cstart && c.cend ≤ e then
       if c.cstart = s then { c with content := r, outro := [], edited := true }
       else { c with content := ([] : List Char), outro := [], edited := true }
     else c) = c := by
  rw [if_neg]
  simp only [Bool.and_eq_true, decide_eq_true_eq, not_and]
  intro h1
  omega

/-- A chunk ending after the overwritten range is not marked. -/
theorem markSkipRight (s e : Nat) (r : List Char) (c : Chunk)
    (h : e < c.cend) :
    (if s ≤ c.cstart && c.cend ≤ e then
       if c.cstart = s then { c with content := r, outro := [], edited := true }
       else { c with content := ([] : List Char), outro := [], edited := true }
     else c) = c := by
  rw [if_neg]
  simp only [Bool.and_eq_true, decide_eq_true_eq, not_and]
  intro h1
  omega

/-- One `overwrite` on the invariant shape: splits off the gap
`[a, s)`, replaces `[s, e)`, keeps the fresh tail `[e, len)`. -/
theorem overwrite_step (code : List Char) (a : Nat) (done : List Chunk)
    (ms : MagicStr) (hinv : OWInv code a done ms)
    (s e : Nat) (r : List Char) (hs : a ≤ s) (hse : s < e)
    (hlen : e ≤ code.length) :
    ms.overwrite s e r = .ok { ms with chunks :=
      (done ++ (if a < s then [⟨a, s, sliceList code a s, [], false⟩] else []) ++
        [⟨s, e, r, [], true⟩]) ++
      (if e < code.length then
        [⟨e, code.length, sliceList code e code.length, [], false⟩] else []) } ∧
    OWInv code e
      (done ++ (if a < s then [⟨a, s, sliceList code a s, [], false⟩] else []) ++
        [⟨s, e, r, [], true⟩])
      { ms with chunks :=
        (done ++ (if a < s then [⟨a, s, sliceList code a s, [], false⟩] else []) ++
          [⟨s, e, r, [], true⟩]) ++
        (if e < code.length then
          [⟨e, code.length, sliceList code e code.length, [], false⟩] else []) } := by
  obtain ⟨ho, hi, ha, hc, hb⟩ := hinv
  have haLen : a < code.length := by omega
  rw [if_pos haLen] at hc
  have hdoneMiss : ∀ c ∈ done, (decide (c.cstart < s) && decide (s < c.cend)) = false := by
    intro c hcd
    have := hb c hcd
    simp only [Bool.and_eq_false_iff, decide_eq_false_iff_not, not_lt]
    right
    omega
  have hsplit1 : splitChunksAt code s ms.chunks =
      .ok (done ++ (if a < s then [⟨a, s, sliceList code a s, [], false⟩] else []) ++
        [⟨s, code.length, sliceList code s code.length, [], false⟩]) := by
    rw [hc, splitChunksAt_skip code s done _ hdoneMiss]
    by_cases hgap : a < s
    · rw [splitChunksAt_single_hit code s ⟨a, code.length, sliceList code a code.length, [], false⟩
        (by simp only [Bool.and_eq_true, decide_eq_true_eq]; exact ⟨hgap, by omega⟩) rfl]
      simp [Except.map, hgap, List.append_assoc]
    · have has : a = s := by omega
      subst has
      rw [splitChunksAt_single_miss code a ⟨a, code.length, sliceList code a code.length, [], false⟩
        (by simp)]
      simp [Except.map, hgap]
  have hdoneMiss2 : ∀ c ∈ (done ++
      (if a < s then [(⟨a, s, sliceList code a s, [], false⟩ : Chunk)] else [])),
      (decide (c.cstart < e) && decide (e < c.cend)) = false := by
    intro c hcd
    rcases List.mem_append.mp hcd with hcd | hcd
    · have := hb c hcd
      simp only [Bool.and_eq_false_iff, decide_eq_false_iff_not, not_lt]
      right
      omega
    · by_cases hgap : a < s
      · rw [if_pos hgap] at hcd
        simp only [List.mem_singleton] at hcd
        subst hcd
        simp only [Bool.and_eq_false_iff, decide_eq_false_iff_not, not_lt]
        right
        omega
      · rw [if_neg hgap] at hcd
        simp at hcd
  have hsplit2 : splitChunksAt code e
      (done ++ (if a < s then [⟨a, s, sliceList code a s, [], false⟩] else []) ++
        [⟨s, code.length, sliceList code s code.length, [], false⟩]) =
      .ok (done ++ (if a < s then [⟨a, s, sliceList code a s, [], false⟩] else []) ++
        ([⟨s, e, sliceList code s e, [], false⟩] ++
          (if e < code.length then
            [⟨e, code.length, sliceList code e code.length, [], false⟩] else []))) := by
    rw [splitChunksAt_skip code e _ _ hdoneMiss2]
    by_cases htail : e < code.length
    · rw [splitChunksAt_single_hit code e
        ⟨s, code.length, sliceList code s code.length, [], false⟩
        (by simp only [Bool.and_eq_true, decide_eq_true_eq]; exact ⟨hse, htail⟩) rfl]
      simp [Except.map, htail]
    · have hel : e = code.length := by omega
      rw [splitChunksAt_single_miss code e
        ⟨s, code.length, sliceList code s code.length, [], false⟩
        (by simp only [Bool.and_eq_false_iff, decide_eq_false_iff_not, not_lt]
            right
            omega)]
      simp [Except.map, htail, hel]
  have hmark : ∀ (f : Chunk → Chunk),
      (∀ c ∈ done, f c = c) →
      (∀ c ∈ (if a < s then [(⟨a, s, sliceList code a s, [], false⟩ : Chunk)] else []), f c = c) →
      (f ⟨s, e, sliceList code s e, [], false⟩ = ⟨s, e, r, [], true⟩) →
      (∀ c ∈ (if e < code.length then
          [(⟨e, code.length, sliceList code e code.length, [], false⟩ : Chunk)] else []), f c = c) →
      (done ++ (if a < s then [(⟨a, s, sliceList code a s, [], false⟩ : Chunk)] else []) ++
        ([(⟨s, e, sliceList code s e, [], false⟩ : Chunk)] ++
          (if e < code.length then
            [(⟨e, code.length, sliceList code e code.length, [], false⟩ : Chunk)] else []))).map f =
      (done ++ (if a < s then [(⟨a, s, sliceList code a s, [], false⟩ : Chunk)] else []) ++
        [(⟨s, e, r, [], true⟩ : Chunk)]) ++
      (if e < code.length then
        [(⟨e, code.length, sliceList code e code.length, [], false⟩ : Chunk)] else []) := by
    intro f hf1 hf2 hf3 hf4
    rw [List.map_append, List.map_append, List.map_append, List.map_cons, List.map_nil]
    rw [mapIdAll f done hf1, mapIdAll f _ hf2, mapIdAll f _ hf4, hf3]
    simp [List.append_assoc]
  constructor
  · rw [MagicStr.overwrite, if_pos (by
      simp only [ho, Bool.and_eq_true, decide_eq_true_eq]
      exact ⟨hse, hlen⟩)]
    rw [MagicStr.split, ho, hsplit1]
    simp only [Except.map, bind, Except.bind]
    rw [MagicStr.split]
    simp only [ho]
    rw [hsplit2]
    simp only [Except.map, Except.bind]
    apply congrArg
    apply congrArg
    apply hmark
    · intro c hcd
      have hbc := hb c hcd
      exact markSkipLeft s e r c (by omega)
    · intro c hcd
      by_cases hgap : a < s
      · rw [if_pos hgap] at hcd
        simp only [List.mem_singleton] at hcd
        subst hcd
        exact markSkipLeft s e r _ hgap
      · rw [if_neg hgap] at hcd
        simp at hcd
    · rw [if_pos (by
        simp only [Bool.and_eq_true, decide_eq_true_eq]
        exact ⟨le_refl s, le_refl e⟩)]
      rw [if_pos rfl]
    · intro c hcd
      by_cases htail : e < code.length
      · rw [if_pos htail] at hcd
        simp only [List.mem_singleton] at hcd
        subst hcd
        exact markSkipRight s e r _ htail
      · rw [if_neg htail] at hcd
        simp at hcd
  · refine ⟨ho, hi, by omega, by simp [List.append_assoc], ?_⟩
    intro c hcd
    rcases List.mem_append.mp hcd with hcd | hcd
    · rcases List.mem_append.mp hcd with hcd | hcd
      · have := hb c hcd
        omega
      · by_cases hgap : a < s
        · rw [if_pos hgap] at hcd
          simp only [List.mem_singleton] at hcd
          subst hcd
          exact ⟨show s ≤ e by omega, show a < s from hgap⟩
        · rw [if_neg hgap] at hcd
          simp at hcd
    · simp only [List.mem_singleton] at hcd
      subst hcd
      exact ⟨show e ≤ e from le_refl e, show s < e from hse⟩

/-- Sequential overwrites of a chained range list on the invariant
shape succeed and render to the spliced text. -/
theorem applyOWs_spec (code : List Char) :
    ∀ (ps : List ((Nat × Nat) × List Char)) (a : Nat) (done : List Chunk)
      (ms : MagicStr),
    OWInv code a done ms → chainFromB a code.length ps = true →
    ∃ ms', applyOWs ps ms = .ok ms' ∧ ms'.intro = ms.intro ∧
      catLists (ms'.chunks.map renderChunk) =
        catLists (done.map renderChunk) ++ spliceAll code a ps
  | [], a, done, ms, hinv, _ => by
      obtain ⟨ho, hi, ha, hc, hb⟩ := hinv
      refine ⟨ms, rfl, rfl, ?_⟩
      rw [hc, spliceAll, List.map_append, catLists_append]
      by_cases hlt : a < code.length
      · rw [if_pos hlt]
        simp [catLists, renderChunk, sliceList_to_end]
      · rw [if_neg hlt]
        have : code.drop a = [] := List.drop_eq_nil_of_le (by omega)
        simp [catLists, this]
  | ((s, e), r) :: rest, a, done, ms, hinv, hchain => by
      have hch : a ≤ s ∧ s < e ∧ e ≤ code.length ∧
          chainFromB e code.length rest = true := by
        rw [chainFromB] at hchain
        simp only [Bool.and_eq_true, decide_eq_true_eq] at hchain
        exact ⟨hchain.1.1.1, hchain.1.1.2, hchain.1.2, hchain.2⟩
      obtain ⟨h1, h2, h3, h4⟩ := hch
      obtain ⟨hov, hinv1⟩ := overwrite_step code a done ms hinv s e r h1 h2 h3
      obtain ⟨ms', hap, hintro, hrender⟩ :=
        applyOWs_spec code rest e
          (done ++ (if a < s then [⟨a, s, sliceList code a s, [], false⟩] else []) ++
            [⟨s, e, r, [], true⟩]) _ hinv1 h4
      refine ⟨ms', ?_, by rw [hintro], ?_⟩
      · rw [applyOWs, hov]
        simpa [Bind.bind, Except.bind] using hap
      · rw [hrender, spliceAll]
        rw [List.map_append, List.map_append, catLists_append, catLists_append]
        have hgap : catLists (List.map renderChunk
            (if a < s then [(⟨a, s, sliceList code a s, [], false⟩ : Chunk)] else [])) =
            sliceList code a s := by
          by_cases hlt : a < s
          · rw [if_pos hlt]
            simp [catLists, renderChunk]
          · rw [if_neg hlt]
            have has : a = s := by omega
            rw [has, sliceList_self]
            simp [catLists]
        rw [hgap]
        simp [catLists, renderChunk, List.append_assoc]

theorem zipCons {α β : Type} (a : α) (as : List α) (b : β) (bs : List β) :
    List.zip (a :: as) (b :: bs) = (a, b) :: List.zip as bs := rfl

theorem drop_eq_get_cons {α : Type} :
    ∀ (l : List α) (k : Nat), k < l.length →
    ∃ x, l.get? k = some x ∧ l.drop k = x :: l.drop (k + 1)
  | [], k, h => by simp at h
  | x :: xs, 0, _ => ⟨x, rfl, rfl⟩
  | x :: xs, k + 1, h => by
      obtain ⟨y, hget, hdrop⟩ := drop_eq_get_cons xs k (by simpa using h)
      exact ⟨y, by simpa using hget, by simpa using hdrop⟩

/-- The static fast-path loop is the sequence of `overwrite`s over the
recorded locations (from index `k` on), and emits exactly its chunk
list. -/
theorem staticLoop_spec (emitF : List Char → List Char) (locs : List (Nat × Nat)) :
    ∀ (chunks : List (List Char)) (k : Nat) (ms : MagicStr),
    k + chunks.length ≤ locs.length →
    staticLoop emitF locs k chunks ms =
      (applyOWs ((locs.drop k).zip
        (chunks.map (fun css => jsonQuote (emitF css)))) ms).map
        (fun ms' => (ms', chunks))
  | [], k, ms, _ => by
      simp [staticLoop, applyOWs, Except.map]
  | css :: rest, k, ms, hlen => by
      have hk : k < locs.length := by
        simp only [List.length_cons] at hlen
        omega
      obtain ⟨⟨s, e⟩, hget, hdrop⟩ := drop_eq_get_cons locs k hk
      rw [staticLoop, hget, hdrop, List.map_cons, zipCons, applyOWs]
      cases hov : ms.overwrite s e (jsonQuote (emitF css)) with
      | error err => simp [Bind.bind, Except.bind, hov, Except.map]
      | ok out1 =>
          simp only [Bind.bind, Except.bind, hov]
          rw [staticLoop_spec emitF locs rest (k + 1) out1 (by
            simp only [List.length_cons] at hlen
            omega)]
          cases happ : applyOWs ((locs.drop (k + 1)).zip
              (rest.map (fun css => jsonQuote (emitF css)))) out1 <;>
            simp [Except.map, happ]

theorem canonExpB_cons (k : Nat) (name : List Char) (v : JsVal)
    (rest : List (List Char × JsVal)) (cssList : List (List Char))
    (h : canonExpB k ((name, v) :: rest) cssList = true) :
    ∃ css cssRest, cssList = css :: cssRest ∧
      exportPref.isPrefixOf name = true ∧
      jsNumberNat (name.drop exportPref.length) = some k ∧
      v = .str css ∧ canonExpB (k + 1) rest cssRest = true := by
  cases cssList with
  | nil => simp [canonExpB] at h
  | cons css cssRest =>
      simp only [canonExpB, Bool.and_eq_true] at h
      obtain ⟨⟨⟨h1, h2⟩, h3⟩, h4⟩ := h
      cases v with
      | other => simp at h3
      | str sv =>
          have hsv : sv = css := by
            simpa using h3
          subst hsv
          exact ⟨sv, cssRest, rfl, h1, by simpa using h2, rfl, h4⟩

theorem canonExpB_nil (k : Nat) (cssList : List (List Char))
    (h : canonExpB k [] cssList = true) : cssList = [] := by
  cases cssList with
  | nil => rfl
  | cons css cssRest => simp [canonExpB] at h

/-- Processing a canonical prefix of the harvested exports performs the
corresponding `overwrite`s in index order and prepends the
corresponding CSS values to the emit log. -/
theorem exportsLoop_append (emitF : List Char → List Char) (locs : List (Nat × Nat)) :
    ∀ (pre : List (List Char × JsVal)) (cssList : List (List Char)) (k : Nat)
      (ms : MagicStr) (rest : List (List Char × JsVal)),
    canonExpB k pre cssList = true →
    k + cssList.length ≤ locs.length →
    exportsLoop emitF locs (pre ++ rest) ms =
      (match applyOWs ((locs.drop k).zip
          (cssList.map (fun css => jsonQuote (emitF css)))) ms with
        | .error err => .error err
        | .ok ms1 =>
            (exportsLoop emitF locs rest ms1).map (fun p => (p.1, cssList ++ p.2)))
  | [], cssList, k, ms, rest, hcanon, _ => by
      have := canonExpB_nil k cssList hcanon
      subst this
      simp only [List.map_nil, List.zip_nil_right, applyOWs, List.nil_append]
      cases hx : exportsLoop emitF locs rest ms <;> simp [Except.map, hx]
  | (name, v) :: pre', cssList, k, ms, rest, hcanon, hlen => by
      obtain ⟨css, cssRest, hcl, hpref, hnum, hv, hcanon'⟩ :=
        canonExpB_cons k name v pre' cssList hcanon
      subst hcl
      subst hv
      have hk : k < locs.length := by
        simp only [List.length_cons] at hlen
        omega
      obtain ⟨⟨s, e⟩, hget, hdrop⟩ := drop_eq_get_cons locs k hk
      rw [List.cons_append, exportsLoop, if_pos hpref]
      rw [hnum]
      simp only [Option.bind]
      rw [hget, hdrop, List.map_cons, zipCons, applyOWs]
      cases hov : ms.overwrite s e (jsonQuote (emitF css)) with
      | error err => simp [Bind.bind, Except.bind, hov, Except.map]
      | ok out1 =>
          simp only [Bind.bind, Except.bind, hov]
          rw [exportsLoop_append emitF locs pre' cssRest (k + 1) out1 rest hcanon'
            (by simp only [List.length_cons] at hlen; omega)]
          cases happ : applyOWs ((locs.drop (k + 1)).zip
              (cssRest.map (fun css => jsonQuote (emitF css)))) out1 with
          | error err => simp [Except.map, happ]
          | ok msf =>
              simp only []
              cases hexp : exportsLoop emitF locs rest msf <;>
                simp [Except.map, hexp]

theorem OWInv_mk0 (code : List Char) (hne : code ≠ []) :
    OWInv code 0 [] (MagicStr.mk0 code) := by
  refine ⟨rfl, rfl, Nat.zero_le _, ?_, by simp⟩
  rw [if_pos (by cases code with
    | nil => exact absurd rfl hne
    | cons c cs => simp)]
  simp only [MagicStr.mk0, List.nil_append]
  rw [show sliceList code 0 code.length = code by
    rw [sliceList, List.drop_zero]
    exact List.take_length ..]

theorem rangesChain_zip (len : Nat) :
    ∀ (l : List (Nat × Nat)) (rs : List (List Char)) (a : Nat),
    rangesChainB a len l = true → chainFromB a len (l.zip rs) = true
  | [], rs, a, _ => by simp [List.zip, chainFromB]
  | (s, e) :: ls, [], a, _ => by simp [List.zip_nil_right, chainFromB]
  | (s, e) :: ls, rep :: rs, a, h => by
      rw [rangesChainB] at h
      simp only [Bool.and_eq_true] at h
      rw [zipCons, chainFromB]
      simp only [Bool.and_eq_true]
      exact ⟨⟨⟨h.1.1.1, h.1.1.2⟩, h.1.2⟩, rangesChain_zip len ls rs e h.2⟩

theorem rangesChain_sites (len : Nat) :
    ∀ (sites : List Site) (a : Nat),
    rangesChainB a len (locsOfSites sites) = true →
    List.Chain' (· < ·) (sites.map Site.sStart)
  | [], _, _ => List.chain'_nil
  | [s1], _, _ => by simp
  | s1 :: s2 :: rest, a, h => by
      simp only [locsOfSites, List.map_cons] at h
      rw [rangesChainB] at h
      simp only [Bool.and_eq_true, decide_eq_true_eq] at h
      have htail := rangesChain_sites len (s2 :: rest) s1.sStop (by
        simpa [locsOfSites] using h.2)
      rw [List.map_cons, List.map_cons, List.chain'_cons]
      refine ⟨?_, by simpa using htail⟩
      have h2 := h.2
      rw [rangesChainB] at h2
      simp only [Bool.and_eq_true, decide_eq_true_eq] at h2
      omega

/-- `transform` on a file that takes the evaluation path: the outcome is
the eval outcome's error (wrapped) or the harvest-loop result. -/
theorem transform_dyn_entry (code : List Char) (tree : Program) (idArg : List Char)
    (emitF : List Char → List Char) (f : List Char)
    (evalOutcome : Except (List Char) (List (List Char × JsVal)))
    (r : ModifyResult)
    (hok : modifyCodeForEvaluation code tree = .ok r)
    (hsub : hasSub code "css`".toList = true)
    (hnz : r.locs.length ≠ 0)
    (hnone : r.allStaticChunks = none) :
    transform code tree idArg emitF f evalOutcome =
      (match evalOutcome with
        | .error msg => .error ("Failed to evaluate `".toList ++ idArg ++
            "` while extracting css: ".toList ++ msg)
        | .ok fileExports =>
            (exportsLoop emitF r.locs fileExports (MagicStr.mk0 code)).map
              (fun p => (some ((p.1.prepend (importLine f)).render), p.2))) := by
  rw [transform]
  rw [if_neg (by rw [hsub]; simp)]
  rw [hok, okBind]
  rw [if_neg hnz]
  rw [hnone]
  simp only [pure, Except.pure, Bind.bind, Except.bind]
  cases evalOutcome with
  | error msg => rfl
  | ok fileExports =>
      simp only []
      cases hx : exportsLoop emitF r.locs fileExports (MagicStr.mk0 code) with
      | error err => simp [Bind.bind, Except.bind, hx, Except.map, pure, Except.pure]
      | ok p =>
          obtain ⟨out, emits⟩ := p
          simp [Bind.bind, Except.bind, hx, Except.map, pure, Except.pure]

/-- `transform` on a file that takes the static fast path. -/
theorem transform_static_entry (code : List Char) (tree : Program) (idArg : List Char)
    (emitF : List Char → List Char) (f : List Char)
    (evalOutcome : Except (List Char) (List (List Char × JsVal)))
    (r : ModifyResult) (chunks : List (List Char))
    (hok : modifyCodeForEvaluation code tree = .ok r)
    (hsub : hasSub code "css`".toList = true)
    (hnz : r.locs.length ≠ 0)
    (hsome : r.allStaticChunks = some chunks) :
    transform code tree idArg emitF f evalOutcome =
      (staticLoop emitF r.locs 0 chunks (MagicStr.mk0 code)).map
        (fun p => (some ((p.1.prepend (importLine f)).render), p.2)) := by
  rw [transform]
  rw [if_neg (by rw [hsub]; simp)]
  rw [hok, okBind]
  rw [if_neg hnz]
  rw [hsome]
  simp only [pure, Except.pure, Bind.bind, Except.bind]
  cases hx : staticLoop emitF r.locs 0 chunks (MagicStr.mk0 code) with
  | error err => simp [Bind.bind, Except.bind, hx, Except.map, pure, Except.pure]
  | ok p =>
      obtain ⟨out, emits⟩ := p
      simp [Bind.bind, Except.bind, hx, Except.map, pure, Except.pure]

/-- Full characterization of the static fast path: the rewritten text is
the import line followed by the original text with every site range
replaced by the JSON-quoted class name of its raw chunk, and the emit
log lists each site's raw chunk in site order. -/
theorem transform_static_spec (code : List Char) (tree : Program) (idArg : List Char)
    (emitF : List Char → List Char) (f : List Char)
    (evalOutcome : Except (List Char) (List (List Char × JsVal)))
    (r : ModifyResult)
    (hok : modifyCodeForEvaluation code tree = .ok r)
    (hsub : hasSub code "css`".toList = true)
    (hne : sitesOf tree ≠ [])
    (hall : (sitesOf tree).all (fun s => s.nexprs == 0) = true)
    (hchain : rangesChainB 0 code.length (locsOfSites (sitesOf tree)) = true) :
    transform code tree idArg emitF f evalOutcome =
      .ok (some (importLine f ++ spliceAll code 0 ((locsOfSites (sitesOf tree)).zip
        (((sitesOf tree).map Site.raw0).map (fun css => jsonQuote (emitF css))))),
        (sitesOf tree).map Site.raw0) := by
  obtain ⟨hlocs, -, -, hstat⟩ := modify_spec code tree r hok
  have hsome : r.allStaticChunks = some ((sitesOf tree).map Site.raw0) := by
    rw [hstat, if_pos hall, staticPrefix_of_all _ hall]
  have hnz : r.locs.length ≠ 0 := by
    rw [hlocs]
    simp only [locsOfSites, List.length_map]
    intro h0
    exact hne (List.eq_nil_of_length_eq_zero h0)
  rw [transform_static_entry code tree idArg emitF f evalOutcome r _ hok hsub hnz hsome]
  rw [staticLoop_spec emitF r.locs ((sitesOf tree).map Site.raw0) 0 (MagicStr.mk0 code)
    (by rw [hlocs]; simp [locsOfSites])]
  rw [List.drop_zero, hlocs]
  obtain ⟨ms', happ, hintro, hrender⟩ := applyOWs_spec code
    ((locsOfSites (sitesOf tree)).zip
      (((sitesOf tree).map Site.raw0).map (fun css => jsonQuote (emitF css))))
    0 [] (MagicStr.mk0 code)
    (OWInv_mk0 code (hasSub_ne_nil code hsub))
    (rangesChain_zip code.length (locsOfSites (sitesOf tree)) _ 0 hchain)
  rw [happ]
  simp only [Except.map]
  have hout : (ms'.prepend (importLine f)).render =
      importLine f ++ spliceAll code 0 ((locsOfSites (sitesOf tree)).zip
        (((sitesOf tree).map Site.raw0).map (fun css => jsonQuote (emitF css)))) := by
    rw [render_eq]
    simp only [MagicStr.prepend]
    rw [hintro, hrender]
    simp [MagicStr.mk0, catLists]
  rw [hout]

/-- Full characterization of the evaluation path under canonical
harvested exports: the rewritten text is the import line followed by the
original text with every site range replaced by the JSON-quoted class
name of its evaluated CSS, and the emit log lists the evaluated CSS
values in export (= site index) order. -/
theorem transform_dynamic_spec (code : List Char) (tree : Program) (idArg : List Char)
    (emitF : List Char → List Char) (f : List Char)
    (fileExports : List (List Char × JsVal)) (cssList : List (List Char))
    (r : ModifyResult)
    (hok : modifyCodeForEvaluation code tree = .ok r)
    (hsub : hasSub code "css`".toList = true)
    (hne : sitesOf tree ≠ [])
    (hdyn : (sitesOf tree).all (fun s => s.nexprs == 0) = false)
    (hchain : rangesChainB 0 code.length (locsOfSites (sitesOf tree)) = true)
    (hcanon : canonExpB 0 fileExports cssList = true)
    (hlen : cssList.length = (sitesOf tree).length) :
    transform code tree idArg emitF f (.ok fileExports) =
      .ok (some (importLine f ++ spliceAll code 0 ((locsOfSites (sitesOf tree)).zip
        (cssList.map (fun css => jsonQuote (emitF css))))), cssList) := by
  obtain ⟨hlocs, -, -, hstat⟩ := modify_spec code tree r hok
  have hnone : r.allStaticChunks = none := by
    rw [hstat, hdyn]
    simp
  have hnz : r.locs.length ≠ 0 := by
    rw [hlocs]
    simp only [locsOfSites, List.length_map]
    intro h0
    exact hne (List.eq_nil_of_length_eq_zero h0)
  rw [transform_dyn_entry code tree idArg emitF f (.ok fileExports) r hok hsub hnz hnone]
  simp only []
  rw [show fileExports = fileExports ++ [] from (List.append_nil _).symm]
  rw [exportsLoop_append emitF r.locs fileExports cssList 0 (MagicStr.mk0 code) [] hcanon
    (by rw [hlocs]; simp only [locsOfSites, List.length_map]; omega)]
  rw [List.drop_zero, hlocs]
  obtain ⟨ms', happ, hintro, hrender⟩ := applyOWs_spec code
    ((locsOfSites (sitesOf tree)).zip
      (cssList.map (fun css => jsonQuote (emitF css))))
    0 [] (MagicStr.mk0 code)
    (OWInv_mk0 code (hasSub_ne_nil code hsub))
    (rangesChain_zip code.length (locsOfSites (sitesOf tree)) _ 0 hchain)
  rw [happ]
  simp only [exportsLoop, Except.map]
  have hout : (ms'.prepend (importLine f)).render =
      importLine f ++ spliceAll code 0 ((locsOfSites (sitesOf tree)).zip
        (cssList.map (fun css => jsonQuote (emitF css)))) := by
    rw [render_eq]
    simp only [MagicStr.prepend]
    rw [hintro, hrender]
    simp [MagicStr.mk0, catLists]
  rw [hout, List.append_nil]

/-- The first line of the rewritten file (everything before the first
newline) is exactly the injected import statement, whatever follows. -/
theorem importLine_firstLine (f t : List Char)
    (hnl : f.all (fun c => c != '\n') = true) :
    (importLine f ++ t).takeWhile (fun c => c != '\n') =
      "import \"".toList ++ f ++ ['"'] := by
  rw [importLine]
  rw [List.append_assoc, List.append_assoc]
  rw [takeWhile_append_all _ _ _ (by decide)]
  rw [takeWhile_append_all _ _ _ hnl]
  have hq : ("\"\n".toList ++ t).takeWhile (fun c => c != '\n') = ['"'] := by
    show ('"' :: '\n' :: t).takeWhile (fun c => c != '\n') = ['"']
    rw [List.takeWhile_cons, if_pos (by decide), List.takeWhile_cons,
      if_neg (by decide)]
  rw [hq, List.append_assoc]

/-- C4: within one transform of one file, `emit` is called exactly once
per extraction site, in ascending order of the sites' start offsets
(under the parser invariant that the recorded site ranges are in source
order), on both paths: the static fast path emits each site's raw chunk
in site order, and the evaluation path emits the harvested exports'
values in export order, which under the canonical export list is site
index order — one value per site. -/
theorem claim_C4 (code : List Char) (tree : Program) (idArg : List Char)
    (emitF : List Char → List Char) (f : List Char)
    (evalOutcome : Except (List Char) (List (List Char × JsVal)))
    (r : ModifyResult)
    (hok : modifyCodeForEvaluation code tree = .ok r)
    (hsub : hasSub code "css`".toList = true)
    (hne : sitesOf tree ≠ [])
    (hchain : rangesChainB 0 code.length (locsOfSites (sitesOf tree)) = true) :
    List.Chain' (· < ·) ((sitesOf tree).map Site.sStart) ∧
    ((sitesOf tree).all (fun s => s.nexprs == 0) = true →
      ∃ out, transform code tree idArg emitF f evalOutcome =
        .ok (some out, (sitesOf tree).map Site.raw0)) ∧
    (∀ fileExports cssList,
      (sitesOf tree).all (fun s => s.nexprs == 0) = false →
      canonExpB 0 fileExports cssList = true →
      cssList.length = (sitesOf tree).length →
      ∃ out, transform code tree idArg emitF f (.ok fileExports) =
        .ok (some out, cssList)) := by
  refine ⟨rangesChain_sites code.length (sitesOf tree) 0 hchain, ?_, ?_⟩
  · intro hall
    exact ⟨_, transform_static_spec code tree idArg emitF f evalOutcome r
      hok hsub hne hall hchain⟩
  · intro fileExports cssList hdyn hcanon hlen
    exact ⟨_, transform_dynamic_spec code tree idArg emitF f fileExports cssList r
      hok hsub hne hdyn hchain hcanon hlen⟩

/-- C4 witness: the hoisting fixture (two static sites, starts 12 and
65) is emitted once per site, in ascending start order. -/
theorem claim_C4_witness :
    hasSub exCodeA "css`".toList = true ∧
    sitesOf exTreeA ≠ [] ∧
    rangesChainB 0 exCodeA.length (locsOfSites (sitesOf exTreeA)) = true ∧
    ∃ r, modifyCodeForEvaluation exCodeA exTreeA = Except.ok r ∧
      (List.Chain' (· < ·) ((sitesOf exTreeA).map Site.sStart) ∧
       ((sitesOf exTreeA).all (fun s => s.nexprs == 0) = true →
         ∃ out, transform exCodeA exTreeA "id.js".toList (fun c => c) "f.css".toList
            (Except.ok []) = Except.ok (some out, (sitesOf exTreeA).map Site.raw0)) ∧
       (∀ fileExports cssList,
         (sitesOf exTreeA).all (fun s => s.nexprs == 0) = false →
         canonExpB 0 fileExports cssList = true →
         cssList.length = (sitesOf exTreeA).length →
         ∃ out, transform exCodeA exTreeA "id.js".toList (fun c => c) "f.css".toList
            (Except.ok fileExports) = Except.ok (some out, cssList))) :=
  ⟨by decide, by decide, by decide, _, rfl,
    claim_C4 exCodeA exTreeA "id.js".toList (fun c => c) "f.css".toList (Except.ok [])
      _ rfl (by decide) (by decide) (by decide)⟩

/-- C5: whenever `transform` succeeds with a rewritten text, that text
is the injected import line — the first line of the file, ending at the
first newline, with the supplied CSS file name as specifier — followed
by the original source in which every recorded site range
`[start, stop)` is replaced by the JSON-quoted class name `emit`
returned for that site's CSS: the raw chunk on the static path, the
evaluated export value on the evaluation path (canonical exports). -/
theorem claim_C5 (code : List Char) (tree : Program) (idArg : List Char)
    (emitF : List Char → List Char) (f : List Char)
    (r : ModifyResult)
    (hok : modifyCodeForEvaluation code tree = .ok r)
    (hsub : hasSub code "css`".toList = true)
    (hne : sitesOf tree ≠ [])
    (hchain : rangesChainB 0 code.length (locsOfSites (sitesOf tree)) = true)
    (hnl : f.all (fun c => c != '\n') = true) :
    (∀ t, (importLine f ++ t).takeWhile (fun c => c != '\n') =
      "import \"".toList ++ f ++ ['"']) ∧
    ((sitesOf tree).all (fun s => s.nexprs == 0) = true →
      ∀ evalOutcome, transform code tree idArg emitF f evalOutcome =
        .ok (some (importLine f ++ spliceAll code 0
          ((locsOfSites (sitesOf tree)).zip
            (((sitesOf tree).map Site.raw0).map (fun css => jsonQuote (emitF css))))),
          (sitesOf tree).map Site.raw0)) ∧
    (∀ fileExports cssList,
      (sitesOf tree).all (fun s => s.nexprs == 0) = false →
      canonExpB 0 fileExports cssList = true →
      cssList.length = (sitesOf tree).length →
      transform code tree idArg emitF f (.ok fileExports) =
        .ok (some (importLine f ++ spliceAll code 0
          ((locsOfSites (sitesOf tree)).zip
            (cssList.map (fun css => jsonQuote (emitF css))))), cssList)) := by
  refine ⟨fun t => importLine_firstLine f t hnl, ?_, ?_⟩
  · intro hall evalOutcome
    exact transform_static_spec code tree idArg emitF f evalOutcome r
      hok hsub hne hall hchain
  · intro fileExports cssList hdyn hcanon hlen
    exact transform_dynamic_spec code tree idArg emitF f fileExports cssList r
      hok hsub hne hdyn hchain hcanon hlen

/-- C5 witness: the one-dynamic-site fixture, evaluated to `purple`,
rewrites to the import line plus the source with the site range
replaced by the JSON-quoted class name. -/
theorem claim_C5_witness :
    hasSub exCodeC "css`".toList = true ∧
    sitesOf exTreeC ≠ [] ∧
    rangesChainB 0 exCodeC.length (locsOfSites (sitesOf exTreeC)) = true ∧
    "f.css".toList.all (fun c => c != '\n') = true ∧
    ∃ r, modifyCodeForEvaluation exCodeC exTreeC = Except.ok r ∧
      ((∀ t, (importLine "f.css".toList ++ t).takeWhile (fun c => c != '\n') =
        "import \"".toList ++ "f.css".toList ++ ['"']) ∧
       ((sitesOf exTreeC).all (fun s => s.nexprs == 0) = true →
         ∀ evalOutcome, transform exCodeC exTreeC "id.js".toList (fun c => c)
            "f.css".toList evalOutcome =
          Except.ok (some (importLine "f.css".toList ++ spliceAll exCodeC 0
            ((locsOfSites (sitesOf exTreeC)).zip
              (((sitesOf exTreeC).map Site.raw0).map (fun css => jsonQuote css)))),
            (sitesOf exTreeC).map Site.raw0)) ∧
       (∀ fileExports cssList,
         (sitesOf exTreeC).all (fun s => s.nexprs == 0) = false →
         canonExpB 0 fileExports cssList = true →
         cssList.length = (sitesOf exTreeC).length →
         transform exCodeC exTreeC "id.js".toList (fun c => c) "f.css".toList
            (Except.ok fileExports) =
          Except.ok (some (importLine "f.css".toList ++ spliceAll exCodeC 0
            ((locsOfSites (sitesOf exTreeC)).zip
              (cssList.map (fun css => jsonQuote css)))), cssList))) :=
  ⟨by decide, by decide, by decide, by decide, _, rfl,
    claim_C5 exCodeC exTreeC "id.js".toList (fun c => c) "f.css".toList
      _ rfl (by decide) (by decide) (by decide) (by decide)⟩

/-- C6: on the evaluation path (a dynamic site exists), (a) when
executing the bundled derivative script throws with message `m`,
`transform` fails with exactly the message
`` Failed to evaluate `<id>` while extracting css: `` followed by `m`;
(b) when the harvested exports hold, after a canonical prefix, an
export whose name begins with `__severed_css_` but whose value is not a
string, `transform` fails with exactly
`expected css to evaluate to string`; (c) a failing `transform` exposes
no rewritten text: failure and success are exclusive outcomes. -/
theorem claim_C6 (code : List Char) (tree : Program) (idArg : List Char)
    (emitF : List Char → List Char) (f : List Char)
    (r : ModifyResult)
    (hok : modifyCodeForEvaluation code tree = .ok r)
    (hsub : hasSub code "css`".toList = true)
    (hne : sitesOf tree ≠ [])
    (hdyn : (sitesOf tree).all (fun s => s.nexprs == 0) = false)
    (hchain : rangesChainB 0 code.length (locsOfSites (sitesOf tree)) = true) :
    (∀ m, transform code tree idArg emitF f (.error m) =
      .error ("Failed to evaluate `".toList ++ idArg ++
        "` while extracting css: ".toList ++ m)) ∧
    (∀ pre cssList name rest2,
      canonExpB 0 pre cssList = true →
      cssList.length ≤ (sitesOf tree).length →
      exportPref.isPrefixOf name = true →
      transform code tree idArg emitF f (.ok (pre ++ (name, JsVal.other) :: rest2)) =
        .error "expected css to evaluate to string".toList) ∧
    (∀ eo msg p, transform code tree idArg emitF f eo = .error msg →
      transform code tree idArg emitF f eo ≠ .ok p) := by
  obtain ⟨hlocs, -, -, hstat⟩ := modify_spec code tree r hok
  have hnone : r.allStaticChunks = none := by
    rw [hstat, hdyn]
    simp
  have hnz : r.locs.length ≠ 0 := by
    rw [hlocs]
    simp only [locsOfSites, List.length_map]
    intro h0
    exact hne (List.eq_nil_of_length_eq_zero h0)
  refine ⟨?_, ?_, ?_⟩
  · intro m
    rw [transform_dyn_entry code tree idArg emitF f (.error m) r hok hsub hnz hnone]
  · intro pre cssList name rest2 hcanon hlen hname
    rw [transform_dyn_entry code tree idArg emitF f
      (.ok (pre ++ (name, JsVal.other) :: rest2)) r hok hsub hnz hnone]
    simp only []
    rw [exportsLoop_append emitF r.locs pre cssList 0 (MagicStr.mk0 code)
      ((name, JsVal.other) :: rest2) hcanon
      (by rw [hlocs]; simp only [locsOfSites, List.length_map]; omega)]
    rw [List.drop_zero, hlocs]
    obtain ⟨ms', happ, -, -⟩ := applyOWs_spec code
      ((locsOfSites (sitesOf tree)).zip
        (cssList.map (fun css => jsonQuote (emitF css))))
      0 [] (MagicStr.mk0 code)
      (OWInv_mk0 code (hasSub_ne_nil code hsub))
      (rangesChain_zip code.length (locsOfSites (sitesOf tree)) _ 0 hchain)
    rw [happ]
    simp only []
    rw [exportsLoop, if_pos hname]
    simp [Except.map]
  · intro eo msg p he hco
    rw [he] at hco
    exact Except.noConfusion hco

/-- C6 witness: the one-dynamic-site fixture wraps an evaluation error
and rejects a non-string `__severed_css_` export. -/
theorem claim_C6_witness :
    hasSub exCodeC "css`".toList = true ∧
    sitesOf exTreeC ≠ [] ∧
    (sitesOf exTreeC).all (fun s => s.nexprs == 0) = false ∧
    rangesChainB 0 exCodeC.length (locsOfSites (sitesOf exTreeC)) = true ∧
    ∃ r, modifyCodeForEvaluation exCodeC exTreeC = Except.ok r ∧
      ((∀ m, transform exCodeC exTreeC "id.js".toList (fun c => c) "f.css".toList
          (Except.error m) =
        Except.error ("Failed to evaluate `".toList ++ "id.js".toList ++
          "` while extracting css: ".toList ++ m)) ∧
       (∀ pre cssList name rest2,
         canonExpB 0 pre cssList = true →
         cssList.length ≤ (sitesOf exTreeC).length →
         exportPref.isPrefixOf name = true →
         transform exCodeC exTreeC "id.js".toList (fun c => c) "f.css".toList
            (Except.ok (pre ++ (name, JsVal.other) :: rest2)) =
          Except.error "expected css to evaluate to string".toList) ∧
       (∀ eo msg p,
         transform exCodeC exTreeC "id.js".toList (fun c => c) "f.css".toList eo =
          Except.error msg →
         transform exCodeC exTreeC "id.js".toList (fun c => c) "f.css".toList eo ≠
          Except.ok p)) :=
  ⟨by decide, by decide, by decide, by decide, _, rfl,
    claim_C6 exCodeC exTreeC "id.js".toList (fun c => c) "f.css".toList
      _ rfl (by decide) (by decide) (by decide) (by decide)⟩

/-- C10 (amended) witness: with a non-empty `severed` value the buffer
entry under the stripped id is served. -/
theorem claim_C10_witness :
    severedTruthyB "a.js?severed=abc".toList = true ∧
    loadHook [("a.js".toList, "X".toList)] (fun s => "/cwd/".toList ++ s)
      false "a.js?severed=abc".toList = some "X".toList :=
  ⟨by decide, by
    have h := (claim_C10_amended [("a.js".toList, "X".toList)]
      (fun s => "/cwd/".toList ++ s) "a.js?severed=abc".toList).2.2.2 (by decide)
    rw [h]
    decide⟩

end Severed

/-- Known-answer test: SHA-512 of the empty string (FIPS 180-4 vector),
validating the hash model. -/
theorem Severed.sha512hex_empty :
    Severed.sha512hex [] =
      ("cf83e1357eefb8bdf1542850d66d8007d620e4050b5715dc83f4a921d36ce9ce" ++
       "47d0d13c5d85f2b0ff8318d2877eec2f63b931bd47417a81a538327af927da3e").toList := by
  decide

/-- Known-answer test: SHA-512 of "abc" (FIPS 180-4 vector). -/
theorem Severed.sha512hex_abc :
    Severed.sha512hex (Severed.utf8Encode "abc".toList) =
      ("ddaf35a193617abacc417349ae20413112e6fa4e89a97ea20a9eeee64b55d39a" ++
       "2192992a274fc1a836ba3c23a3feebbd454d4423643ce80e2a9ac94fa54ca49f").toList := by
  decide
